import Mathlib

/-!
Verification of the Enhancv resume tool (`pdf_resume_updater.py`,
`pdf_renderer.py`).

Modelling conventions:
* JSON documents (Python dicts/lists produced by `json.loads`) are the
  inductive type `J`; numbers are modelled as integers, since the tool's
  documents carry only integral numbers (float literals are outside the
  model and make the modelled JSON reader fail).
* Python byte strings are `List Nat` (each entry a byte value).
* Python text strings are `List Char` (Unicode scalar values).
-/

namespace NovaJob

/-- JSON values as handled by Python's `json` module on the repository's
documents. Object fields keep insertion order, as Python dicts do. -/
inductive J where
  | null : J
  | bool (b : Bool) : J
  | num (n : Int) : J
  | str (s : List Char) : J
  | arr (xs : List J) : J
  | obj (kvs : List (List Char × J)) : J

/-- Python `d.get(k)` on a dict: the binding of the key, if any (`none`
models both a missing key and a non-dict receiver). -/
def jLookup : List (List Char × J) → List Char → Option J
  | [], _ => none
  | (k', v) :: t, k => if k' = k then some v else jLookup t k

/-- `v.get(k)` for a JSON value: key lookup on objects, `none` otherwise. -/
def pyGet (v : J) (k : List Char) : Option J :=
  match v with
  | J.obj kvs => jLookup kvs k
  | _ => none

/-- `v.get(k, d)`: lookup with a default. -/
def pyGetD (v : J) (k : List Char) (d : J) : J :=
  match pyGet v k with
  | some w => w
  | none => d

/-- Python truthiness of a JSON value. -/
def pyTruthy : J → Bool
  | J.null => false
  | J.bool b => b
  | J.num n => n != 0
  | J.str s => !s.isEmpty
  | J.arr xs => !xs.isEmpty
  | J.obj kvs => !kvs.isEmpty

/-- The character for a decimal digit value. -/
def digitChar (n : Nat) : Char := Char.ofNat (48 + n)

/-- Decimal digits of a natural number (fuel-driven so that it reduces in
the kernel; the public wrapper supplies enough fuel). -/
def natDigitsGo : Nat → Nat → List Char
  | 0, _ => []
  | fuel + 1, n =>
    if n < 10 then [digitChar n]
    else natDigitsGo fuel (n / 10) ++ [digitChar (n % 10)]

/-- Decimal digit characters of a natural number. -/
def natDigits (n : Nat) : List Char := natDigitsGo (n + 1) n

/-- Python `str(n)` for an integer. -/
def intChars (n : Int) : List Char :=
  if n < 0 then '-' :: natDigits (-n).toNat else natDigits n.toNat

/-- Lowercase hexadecimal digit character for a value below 16. -/
def hexLowerDigit (n : Nat) : Char :=
  if n < 10 then digitChar n else Char.ofNat (87 + n)

/-- `json.dumps` escaping of one character (`ensure_ascii=False`): the
two-character escapes of `ESCAPE_DCT`, `\u00XX` for the remaining control
characters, everything else literal. -/
def escChar (c : Char) : List Char :=
  if c = '"' then ['\\', '"']
  else if c = '\\' then ['\\', '\\']
  else if c.toNat = 8 then ['\\', 'b']
  else if c.toNat = 12 then ['\\', 'f']
  else if c = '\n' then ['\\', 'n']
  else if c = '\r' then ['\\', 'r']
  else if c = '\t' then ['\\', 't']
  else if c.toNat < 32 then
    ['\\', 'u', '0', '0', hexLowerDigit (c.toNat / 16), hexLowerDigit (c.toNat % 16)]
  else [c]

/-- `json.dumps` escaping of a whole string body. -/
def escStr (s : List Char) : List Char := (s.map escChar).flatten

mutual

/-- `json.dumps(v, ensure_ascii=False)` with the default separators
`", "` and `": "`, as `save_pdf` calls it (pdf_resume_updater.py:291). -/
def ser : J → List Char
  | J.null => "null".data
  | J.bool true => "true".data
  | J.bool false => "false".data
  | J.num n => intChars n
  | J.str s => '"' :: (escStr s ++ ['"'])
  | J.arr xs => '[' :: (serItems xs ++ [']'])
  | J.obj kvs => '{' :: (serMembers kvs ++ ['}'])

/-- Array elements, joined by `", "`. -/
def serItems : List J → List Char
  | [] => []
  | [x] => ser x
  | x :: y :: t => ser x ++ ", ".data ++ serItems (y :: t)

/-- Object members, `"key": value` joined by `", "`. -/
def serMembers : List (List Char × J) → List Char
  | [] => []
  | [(k, v)] => '"' :: (escStr k ++ "\": ".data ++ ser v)
  | (k, v) :: p :: t =>
    '"' :: (escStr k ++ "\": ".data ++ ser v ++ ", ".data ++ serMembers (p :: t))

end

/-- No duplicates in a key list. -/
def keysFresh : List (List Char) → Bool
  | [] => true
  | k :: t => !t.contains k && keysFresh t

mutual

/-- Well-formedness of a document as a Python object: every JSON object
has pairwise distinct keys (Python dicts cannot hold duplicates). -/
def wfJ : J → Bool
  | J.null => true
  | J.bool _ => true
  | J.num _ => true
  | J.str _ => true
  | J.arr xs => wfArr xs
  | J.obj kvs => keysFresh (kvs.map Prod.fst) && wfMembers kvs

/-- All array elements well-formed. -/
def wfArr : List J → Bool
  | [] => true
  | x :: t => wfJ x && wfArr t

/-- All member values well-formed. -/
def wfMembers : List (List Char × J) → Bool
  | [] => true
  | (_, v) :: t => wfJ v && wfMembers t

end

/-! ### Model of `json.loads`

A recursive-descent reader following CPython's `json/decoder.py` scanner:
JSON whitespace skipping, strict strings (raw control characters are an
error), `\uXXXX` escapes with surrogate-pair combination (lone surrogates
are unrepresentable in the model and fail), objects built through dict
insertion, and the `NUMBER_RE` integer grammar.  Float, `NaN` and
`Infinity` literals are outside the model and fail. -/

/-- JSON whitespace (the scanner's `_ws` set). -/
def jsonWs (c : Char) : Bool := c = ' ' || c = '\t' || c = '\n' || c = '\r'

/-- Skip leading JSON whitespace. -/
def skipWsJ : List Char → List Char
  | [] => []
  | c :: t => if jsonWs c then skipWsJ t else c :: t

/-- Is this an ASCII decimal digit? -/
def isDig (c : Char) : Bool := 48 ≤ c.toNat && c.toNat ≤ 57

/-- Hexadecimal digit value, case-insensitive. -/
def hexVal (c : Char) : Option Nat :=
  if 48 ≤ c.toNat && c.toNat ≤ 57 then some (c.toNat - 48)
  else if 97 ≤ c.toNat && c.toNat ≤ 102 then some (c.toNat - 87)
  else if 65 ≤ c.toNat && c.toNat ≤ 70 then some (c.toNat - 55)
  else none

/-- Prepend a character to a string-reader result. -/
def consCh (c : Char) (o : Option (List Char × List Char)) :
    Option (List Char × List Char) :=
  match o with
  | some (s, r) => some (c :: s, r)
  | none => none

/-- One step of `py_scanstring` (the body, parameterized by the
continuation used to read the rest of the string). -/
def parseStrStep (recur : List Char → Option (List Char × List Char)) :
    List Char → Option (List Char × List Char)
  | [] => none
  | c :: t =>
    if c = '"' then some ([], t)
    else if c = '\\' then
      match t with
      | [] => none
      | e :: t2 =>
        if e = '"' then consCh '"' (recur t2)
        else if e = '\\' then consCh '\\' (recur t2)
        else if e = '/' then consCh '/' (recur t2)
        else if e = 'b' then consCh (Char.ofNat 8) (recur t2)
        else if e = 'f' then consCh (Char.ofNat 12) (recur t2)
        else if e = 'n' then consCh '\n' (recur t2)
        else if e = 'r' then consCh '\r' (recur t2)
        else if e = 't' then consCh '\t' (recur t2)
        else if e = 'u' then
          match t2 with
          | h1 :: h2 :: h3 :: h4 :: t3 =>
            match hexVal h1, hexVal h2, hexVal h3, hexVal h4 with
            | some a, some b, some cc, some d =>
              let u := ((a * 16 + b) * 16 + cc) * 16 + d
              if 55296 ≤ u && u ≤ 56319 then
                match t3 with
                | e2 :: uc :: g1 :: g2 :: g3 :: g4 :: t4 =>
                  if e2 = '\\' && uc = 'u' then
                    match hexVal g1, hexVal g2, hexVal g3, hexVal g4 with
                    | some a2, some b2, some c2, some d2 =>
                      let w := ((a2 * 16 + b2) * 16 + c2) * 16 + d2
                      if 56320 ≤ w && w ≤ 57343 then
                        consCh (Char.ofNat (65536 + (u - 55296) * 1024 + (w - 56320)))
                          (recur t4)
                      else none
                    | _, _, _, _ => none
                  else none
                | _ => none
              else if 56320 ≤ u && u ≤ 57343 then none
              else consCh (Char.ofNat u) (recur t3)
            | _, _, _, _ => none
          | _ => none
        else none
    else if c.toNat < 32 then none
    else consCh c (recur t)


/-- Fueled driver for the string reader (each step consumes at least one
character, so the wrapper's fuel always suffices). -/
def parseStrGo : Nat → List Char → Option (List Char × List Char)
  | 0, _ => none
  | fuel + 1, cs => parseStrStep (parseStrGo fuel) cs

/-- `py_scanstring` after the opening quote: contents up to the closing
quote plus the remainder.  Strict mode: raw control characters fail; a
`\uXXXX` escape needs four hex digits; surrogate pairs combine; lone
surrogates cannot be represented as scalar values and fail. -/
def parseStr (cs : List Char) : Option (List Char × List Char) :=
  parseStrGo (cs.length + 1) cs

/-- Longest leading run of decimal digits, and the remainder. -/
def takeDigits : List Char → List Char × List Char
  | [] => ([], [])
  | c :: t =>
    if isDig c then
      match takeDigits t with
      | (run, r) => (c :: run, r)
    else ([], c :: t)

/-- Value of a digit string. -/
def digitsVal (ds : List Char) : Nat :=
  ds.foldl (fun a c => a * 10 + (c.toNat - 48)) 0

/-- The `(?:0|[1-9]\d*)` part of `NUMBER_RE`. -/
def parseNatPart : List Char → Option (Nat × List Char)
  | [] => none
  | c :: t =>
    if c = '0' then some (0, t)
    else if isDig c then
      match takeDigits t with
      | (run, r) => some (digitsVal (c :: run), r)
    else none

/-- The optional leading minus plus the integer part. -/
def parseIntPart : List Char → Option (Int × List Char)
  | '-' :: t =>
    match parseNatPart t with
    | some (n, r) => some (-(n : Int), r)
    | none => none
  | cs =>
    match parseNatPart cs with
    | some (n, r) => some ((n : Int), r)
    | none => none

/-- Would an exponent group `[eE][-+]?\d+` start here (after the `e`)? -/
def expFollows : List Char → Bool
  | '+' :: d :: _ => isDig d
  | '-' :: d :: _ => isDig d
  | d :: _ => isDig d
  | [] => false

/-- `NUMBER_RE` at a value position.  When the fraction or exponent group
would match, the number is a float, which is outside the model. -/
def parseNumber (cs : List Char) : Option (Int × List Char) :=
  match parseIntPart cs with
  | none => none
  | some (n, r) =>
    match r with
    | '.' :: d :: _ => if isDig d then none else some (n, r)
    | 'e' :: t => if expFollows t then none else some (n, r)
    | 'E' :: t => if expFollows t then none else some (n, r)
    | _ => some (n, r)

/-- Python dict insertion: update the value in place if the key exists,
else append the new binding. -/
def pyInsert : List (List Char × J) → List Char → J → List (List Char × J)
  | [], k, v => [(k, v)]
  | (k', v') :: t, k, v =>
    if k' = k then (k', v) :: t else (k', v') :: pyInsert t k v

/-- `dict(pairs)`: fold the parsed members through dict insertion. -/
def mkDict (ps : List (List Char × J)) : List (List Char × J) :=
  ps.foldl (fun acc p => pyInsert acc p.1 p.2) []

/-- Is the head of the list this character? -/
def headIs (c : Char) : List Char → Bool
  | [] => false
  | x :: _ => x = c

/-- One step of `scan_once` at a value position: string, object, array,
the three keyword literals, else the number grammar (parameterized by the
object and array readers at the remaining fuel). -/
def parseValueStep (pmt : List Char → Option (List (List Char × J) × List Char))
    (pet : List Char → Option (List J × List Char)) :
    List Char → Option (J × List Char)
  | [] => none
  | c :: t =>
    if c = '"' then
      match parseStr t with
      | some (s, r) => some (J.str s, r)
      | none => none
    else if c = '{' then
      match pmt t with
      | some (ps, r) => some (J.obj (mkDict ps), r)
      | none => none
    else if c = '[' then
      match pet t with
      | some (xs, r) => some (J.arr xs, r)
      | none => none
    else if c = 'n' then
      match t with
      | 'u' :: 'l' :: 'l' :: t2 => some (J.null, t2)
      | _ => none
    else if c = 't' then
      match t with
      | 'r' :: 'u' :: 'e' :: t2 => some (J.bool true, t2)
      | _ => none
    else if c = 'f' then
      match t with
      | 'a' :: 'l' :: 's' :: 'e' :: t2 => some (J.bool false, t2)
      | _ => none
    else
      match parseNumber (c :: t) with
      | some (n, r) => some (J.num n, r)
      | none => none

/-- One step of `JSONObject` directly after the `{`. -/
def parseMembersTopStep
    (pml : List Char → Option (List (List Char × J) × List Char))
    (cs : List Char) : Option (List (List Char × J) × List Char) :=
  let r := skipWsJ cs
  if headIs '}' r then some ([], r.tail)
  else if headIs '"' r then pml r.tail
  else none

/-- One step of the member loop, positioned right after a key's opening
quote. -/
def parseMemberListStep (pv : List Char → Option (J × List Char))
    (pml : List Char → Option (List (List Char × J) × List Char))
    (cs : List Char) : Option (List (List Char × J) × List Char) :=
  match parseStr cs with
  | none => none
  | some (k, r1) =>
    let r2 := skipWsJ r1
    if headIs ':' r2 then
      match pv (skipWsJ r2.tail) with
      | none => none
      | some (v, r4) =>
        let r5 := skipWsJ r4
        if headIs ',' r5 then
          let r6 := skipWsJ r5.tail
          if headIs '"' r6 then
            match pml r6.tail with
            | some (ps, r7) => some ((k, v) :: ps, r7)
            | none => none
          else none
        else if headIs '}' r5 then some ([(k, v)], r5.tail)
        else none
    else none

/-- One step of `JSONArray` directly after the `[`. -/
def parseElemsTopStep (pel : List Char → Option (List J × List Char))
    (cs : List Char) : Option (List J × List Char) :=
  let r := skipWsJ cs
  if headIs ']' r then some ([], r.tail)
  else pel r

/-- One step of the element loop, positioned at a value. -/
def parseElemListStep (pv : List Char → Option (J × List Char))
    (pel : List Char → Option (List J × List Char))
    (cs : List Char) : Option (List J × List Char) :=
  match pv cs with
  | none => none
  | some (v, r) =>
    let w := skipWsJ r
    if headIs ',' w then
      match pel (skipWsJ w.tail) with
      | some (xs, r3) => some (v :: xs, r3)
      | none => none
    else if headIs ']' w then some ([v], w.tail)
    else none

mutual

/-- `scan_once` at a value position (fueled driver). -/
def parseValue : Nat → List Char → Option (J × List Char)
  | 0, _ => none
  | fuel + 1, cs => parseValueStep (parseMembersTop fuel) (parseElemsTop fuel) cs

/-- `JSONObject` directly after the `{` (fueled driver). -/
def parseMembersTop : Nat → List Char → Option (List (List Char × J) × List Char)
  | 0, _ => none
  | fuel + 1, cs => parseMembersTopStep (parseMemberList fuel) cs

/-- Member loop, right after a key's opening quote (fueled driver). -/
def parseMemberList : Nat → List Char → Option (List (List Char × J) × List Char)
  | 0, _ => none
  | fuel + 1, cs => parseMemberListStep (parseValue fuel) (parseMemberList fuel) cs

/-- `JSONArray` directly after the `[` (fueled driver). -/
def parseElemsTop : Nat → List Char → Option (List J × List Char)
  | 0, _ => none
  | fuel + 1, cs => parseElemsTopStep (parseElemList fuel) cs

/-- Element loop, positioned at a value (fueled driver). -/
def parseElemList : Nat → List Char → Option (List J × List Char)
  | 0, _ => none
  | fuel + 1, cs => parseElemListStep (parseValue fuel) (parseElemList fuel) cs

end

/-- `json.loads`: decode one document, then require only trailing
whitespace (`decode`'s extra-data check). -/
def jsonLoads (cs : List Char) : Option J :=
  match parseValue (3 * cs.length + 3) (skipWsJ cs) with
  | some (v, r) => if (skipWsJ r).isEmpty then some v else none
  | none => none

/-! ### The reader inverts the writer -/

theorem toNat_ofNat_valid (n : Nat) (h : Nat.isValidChar n) :
    (Char.ofNat n).toNat = n := by
  simp only [Char.ofNat, h, dif_pos, Char.toNat, Char.ofNatAux]
  rfl

theorem toNat_ofNat_small (n : Nat) (h : n < 55296) :
    (Char.ofNat n).toNat = n :=
  toNat_ofNat_valid n (Or.inl h)

theorem digitChar_toNat (n : Nat) (h : n < 10) : (digitChar n).toNat = 48 + n :=
  toNat_ofNat_small (48 + n) (by omega)

theorem skipWsJ_of_head (c : Char) (t : List Char) (h : jsonWs c = false) :
    skipWsJ (c :: t) = c :: t := by
  simp [skipWsJ, h]

theorem skipWsJ_space (t : List Char) : skipWsJ (' ' :: t) = skipWsJ t := by
  simp [skipWsJ, jsonWs]

/-- Does the remainder start with a character that may legally follow a
serialized value (element/member separators, close brackets, or end)? -/
def stopOk : List Char → Bool
  | [] => true
  | c :: _ => c = ',' || c = ']' || c = '}'

theorem natDigitsGo_ne_nil (fuel n : Nat) (h : 0 < fuel) :
    natDigitsGo fuel n ≠ [] := by
  cases fuel with
  | zero => omega
  | succ f =>
    by_cases h10 : n < 10 <;> simp [natDigitsGo, h10]

theorem natDigitsGo_digits (fuel n : Nat) :
    ∀ c ∈ natDigitsGo fuel n, 48 ≤ c.toNat ∧ c.toNat ≤ 57 := by
  induction fuel generalizing n with
  | zero => simp [natDigitsGo]
  | succ f ih =>
    intro c hc
    by_cases h10 : n < 10
    · simp [natDigitsGo, h10] at hc
      subst hc
      rw [digitChar_toNat n h10]
      omega
    · simp [natDigitsGo, h10] at hc
      rcases hc with hc | hc
      · exact ih (n / 10) c hc
      · subst hc
        rw [digitChar_toNat (n % 10) (by omega)]
        omega

theorem natDigitsGo_head (fuel n : Nat) (hf : 0 < fuel) :
    ∃ c cs, natDigitsGo fuel n = c :: cs ∧ 48 ≤ c.toNat ∧ c.toNat ≤ 57 := by
  rcases hl : natDigitsGo fuel n with _ | ⟨c, cs⟩
  · exact absurd hl (natDigitsGo_ne_nil fuel n hf)
  · refine ⟨c, cs, rfl, ?_⟩
    have := natDigitsGo_digits fuel n c (by rw [hl]; exact List.mem_cons_self c cs)
    exact this

theorem natDigitsGo_head_pos (fuel n : Nat) (hf : n < fuel) (hn : 0 < n) :
    ∃ c cs, natDigitsGo fuel n = c :: cs ∧ 49 ≤ c.toNat ∧ c.toNat ≤ 57 := by
  induction fuel generalizing n with
  | zero => omega
  | succ f ih =>
    by_cases h10 : n < 10
    · refine ⟨digitChar n, [], by simp [natDigitsGo, h10], ?_⟩
      rw [digitChar_toNat n h10]
      omega
    · have hdiv : 0 < n / 10 := Nat.div_pos (by omega) (by omega)
      have hdf : n / 10 < f := by
        have h1 : 10 * (n / 10) ≤ n := Nat.mul_div_le n 10
        omega
      obtain ⟨c, cs, hgo, hc1, hc2⟩ := ih (n / 10) hdf hdiv
      exact ⟨c, cs ++ [digitChar (n % 10)], by simp [natDigitsGo, h10, hgo], hc1, hc2⟩

theorem digitsVal_append_one (ds : List Char) (c : Char) :
    digitsVal (ds ++ [c]) = digitsVal ds * 10 + (c.toNat - 48) := by
  simp [digitsVal, List.foldl_append]

theorem natDigitsGo_val (fuel n : Nat) (h : n < fuel) :
    digitsVal (natDigitsGo fuel n) = n := by
  induction fuel generalizing n with
  | zero => omega
  | succ f ih =>
    by_cases h10 : n < 10
    · simp [natDigitsGo, h10, digitsVal]
      rw [digitChar_toNat n h10]
      omega
    · have hdf : n / 10 < f := by
        have h1 : 10 * (n / 10) ≤ n := Nat.mul_div_le n 10
        have h2 : 0 < n / 10 := Nat.div_pos (by omega) (by omega)
        omega
      rw [natDigitsGo, if_neg h10, digitsVal_append_one, ih (n / 10) hdf,
        digitChar_toNat (n % 10) (by omega)]
      omega

/-- Head of a list is not a digit (used to delimit digit runs). -/
def headDig : List Char → Bool
  | [] => false
  | c :: _ => isDig c

theorem takeDigits_split (ds rest : List Char)
    (hd : ∀ c ∈ ds, isDig c = true) (hr : headDig rest = false) :
    takeDigits (ds ++ rest) = (ds, rest) := by
  induction ds with
  | nil =>
    cases rest with
    | nil => rfl
    | cons c t =>
      simp only [headDig] at hr
      simp [takeDigits, hr]
  | cons c t ih =>
    have hc := hd c (List.mem_cons_self c t)
    have ht : ∀ x ∈ t, isDig x = true := fun x hx => hd x (List.mem_cons_of_mem c hx)
    simp [takeDigits, hc, ih ht]

theorem isDig_of_range (c : Char) (h1 : 48 ≤ c.toNat) (h2 : c.toNat ≤ 57) :
    isDig c = true := by
  simp [isDig]
  omega

theorem parseNatPart_natDigits (n : Nat) (rest : List Char)
    (hr : headDig rest = false) :
    parseNatPart (natDigits n ++ rest) = some (n, rest) := by
  rcases Nat.eq_zero_or_pos n with hn | hn
  · subst hn
    have h0 : natDigits 0 = ['0'] := rfl
    rw [h0]
    simp [parseNatPart]
  · obtain ⟨c, cs, hgo, hc1, hc2⟩ := natDigitsGo_head_pos (n + 1) n (by omega) hn
    have hdigs : ∀ x ∈ natDigits n, 48 ≤ x.toNat ∧ x.toNat ≤ 57 :=
      natDigitsGo_digits (n + 1) n
    have hcs : ∀ x ∈ cs, isDig x = true := by
      intro x hx
      have := hdigs x (by rw [natDigits, hgo]; exact List.mem_cons_of_mem c hx)
      exact isDig_of_range x this.1 this.2
    have hcne : ¬ c = '0' := by
      intro hEq
      rw [hEq] at hc1
      simp at hc1
    rw [natDigits, hgo]
    simp only [List.cons_append, parseNatPart, if_neg hcne,
      isDig_of_range c (by omega) hc2, if_pos, takeDigits_split cs rest hcs hr]
    have hv : digitsVal (c :: cs) = n := by
      have hval := natDigitsGo_val (n + 1) n (by omega)
      rw [hgo] at hval
      exact hval
    rw [hv]

theorem parseIntPart_intChars (n : Int) (rest : List Char)
    (hr : headDig rest = false) :
    parseIntPart (intChars n ++ rest) = some (n, rest) := by
  by_cases hn : n < 0
  · rw [intChars, if_pos hn]
    simp only [List.cons_append, parseIntPart,
      parseNatPart_natDigits (-n).toNat rest hr]
    congr 1
    congr 1
    omega
  · rw [intChars, if_neg hn]
    have hne : n.toNat = n.toNat := rfl
    obtain ⟨c, cs, hgo, hc1, hc2⟩ := natDigitsGo_head (n.toNat + 1) n.toNat (by omega)
    rw [natDigits, hgo]
    have hcne : ¬ c = '-' := by
      intro hEq
      rw [hEq] at hc1
      simp at hc1
    rw [parseIntPart.eq_def]
    simp only [List.cons_append]
    split
    · rename_i heq
      rw [List.cons.injEq] at heq
      exact absurd heq.1 hcne
    · rename_i heq
      have : parseNatPart (natDigits n.toNat ++ rest) = some (n.toNat, rest) :=
        parseNatPart_natDigits n.toNat rest hr
      rw [natDigits, hgo] at this
      rw [List.cons_append] at this
      rw [this]
      simp
      omega

theorem parseNumber_intChars (n : Int) (rest : List Char)
    (hs : stopOk rest = true) :
    parseNumber (intChars n ++ rest) = some (n, rest) := by
  have hr : headDig rest = false := by
    cases rest with
    | nil => rfl
    | cons c t =>
      simp only [stopOk, Bool.or_eq_true, decide_eq_true_eq] at hs
      rcases hs with (h | h) | h <;> subst h <;> rfl
  rw [parseNumber, parseIntPart_intChars n rest hr]
  cases rest with
  | nil => rfl
  | cons c t =>
    simp only [stopOk, Bool.or_eq_true, decide_eq_true_eq] at hs
    rcases hs with (h | h) | h <;> subst h <;> rfl

theorem hexVal_hexLowerDigit (n : Nat) (h : n < 16) :
    hexVal (hexLowerDigit n) = some n := by
  by_cases h10 : n < 10
  · rw [hexLowerDigit, if_pos h10, hexVal, digitChar_toNat n h10]
    rw [if_pos (by simp; omega)]
    simp
  · have hch : (Char.ofNat (87 + n)).toNat = 87 + n := toNat_ofNat_small _ (by omega)
    rw [hexLowerDigit, if_neg h10, hexVal, hch]
    rw [if_neg (by simp; omega), if_pos (by simp; omega)]
    simp only [Option.some.injEq]
    omega


theorem escStr_length (s : List Char) : s.length ≤ (escStr s).length := by
  induction s with
  | nil => simp [escStr]
  | cons c t ih =>
    have h1 : escStr (c :: t) = escChar c ++ escStr t := by simp [escStr]
    have h2 : 1 ≤ (escChar c).length := by
      rw [escChar]
      repeat' split
      all_goals simp
    rw [h1, List.length_append]
    simp only [List.length_cons]
    omega

theorem parseStrGo_plain (f : Nat) (c : Char) (t : List Char) (h1 : ¬ c = '"')
    (h2 : ¬ c = '\\') (h3 : ¬ c.toNat < 32) :
    parseStrGo (f + 1) (c :: t) = consCh c (parseStrGo f t) := by
  rw [parseStrGo, parseStrStep.eq_def]
  simp only []
  rw [if_neg h1, if_neg h2, if_neg h3]

theorem parseStrGo_esc (s : List Char) : ∀ (fuel : Nat) (rest : List Char),
    s.length < fuel →
    parseStrGo fuel (escStr s ++ '"' :: rest) = some (s, rest) := by
  induction s with
  | nil =>
    intro fuel rest hf
    cases fuel with
    | zero => omega
    | succ f =>
      rw [show escStr [] ++ '"' :: rest = '"' :: rest from rfl]
      rw [parseStrGo, parseStrStep.eq_def]
      simp
  | cons c s' ih =>
    intro fuel rest hf
    cases fuel with
    | zero => omega
    | succ f =>
      have ihx := ih f rest (by simp at hf; omega)
      have hesc : escStr (c :: s') = escChar c ++ escStr s' := by simp [escStr]
      rw [hesc, List.append_assoc]
      by_cases h1 : c = '"'
      · subst h1
        rw [show escChar '"' = ['\\', '"'] from rfl]
        rw [show (['\\', '"'] : List Char) ++ (escStr s' ++ '"' :: rest) =
          '\\' :: '"' :: (escStr s' ++ '"' :: rest) from rfl]
        rw [parseStrGo, parseStrStep.eq_def]
        simp [ihx, consCh]
      by_cases h2 : c = '\\'
      · subst h2
        rw [show escChar '\\' = ['\\', '\\'] from rfl]
        rw [show (['\\', '\\'] : List Char) ++ (escStr s' ++ '"' :: rest) =
          '\\' :: '\\' :: (escStr s' ++ '"' :: rest) from rfl]
        rw [parseStrGo, parseStrStep.eq_def]
        simp [ihx, consCh]
      by_cases h3 : c.toNat = 8
      · have hc : c = Char.ofNat 8 := by rw [← Char.ofNat_toNat c, h3]
        rw [show escChar c = ['\\', 'b'] by rw [escChar]; simp [h1, h2, h3]]
        rw [show (['\\', 'b'] : List Char) ++ (escStr s' ++ '"' :: rest) =
          '\\' :: 'b' :: (escStr s' ++ '"' :: rest) from rfl]
        rw [parseStrGo, parseStrStep.eq_def]
        simp [ihx, consCh, hc]
      by_cases h4 : c.toNat = 12
      · have hc : c = Char.ofNat 12 := by rw [← Char.ofNat_toNat c, h4]
        rw [show escChar c = ['\\', 'f'] by rw [escChar]; simp [h1, h2, h3, h4]]
        rw [show (['\\', 'f'] : List Char) ++ (escStr s' ++ '"' :: rest) =
          '\\' :: 'f' :: (escStr s' ++ '"' :: rest) from rfl]
        rw [parseStrGo, parseStrStep.eq_def]
        simp [ihx, consCh, hc]
      by_cases h5 : c = '\n'
      · subst h5
        rw [show escChar '\n' = ['\\', 'n'] by rw [escChar]; simp]
        rw [show (['\\', 'n'] : List Char) ++ (escStr s' ++ '"' :: rest) =
          '\\' :: 'n' :: (escStr s' ++ '"' :: rest) from rfl]
        rw [parseStrGo, parseStrStep.eq_def]
        simp [ihx, consCh]
      by_cases h6 : c = '\r'
      · subst h6
        rw [show escChar '\r' = ['\\', 'r'] by rw [escChar]; simp]
        rw [show (['\\', 'r'] : List Char) ++ (escStr s' ++ '"' :: rest) =
          '\\' :: 'r' :: (escStr s' ++ '"' :: rest) from rfl]
        rw [parseStrGo, parseStrStep.eq_def]
        simp [ihx, consCh]
      by_cases h7 : c = '\t'
      · subst h7
        rw [show escChar '\t' = ['\\', 't'] by rw [escChar]; simp]
        rw [show (['\\', 't'] : List Char) ++ (escStr s' ++ '"' :: rest) =
          '\\' :: 't' :: (escStr s' ++ '"' :: rest) from rfl]
        rw [parseStrGo, parseStrStep.eq_def]
        simp [ihx, consCh]
      by_cases h8 : c.toNat < 32
      · have hd1 : c.toNat / 16 < 16 := by omega
        have hd2 : c.toNat % 16 < 16 := by omega
        rw [show escChar c =
            ['\\', 'u', '0', '0', hexLowerDigit (c.toNat / 16), hexLowerDigit (c.toNat % 16)] by
          rw [escChar]
          simp [h1, h2, h3, h4, h5, h6, h7, h8]]
        rw [show (['\\', 'u', '0', '0', hexLowerDigit (c.toNat / 16),
            hexLowerDigit (c.toNat % 16)] : List Char) ++ (escStr s' ++ '"' :: rest) =
          '\\' :: 'u' :: '0' :: '0' :: hexLowerDigit (c.toNat / 16) ::
            hexLowerDigit (c.toNat % 16) :: (escStr s' ++ '"' :: rest) from rfl]
        rw [parseStrGo, parseStrStep.eq_def]
        simp only [reduceIte, Char.reduceEq]
        rw [show hexVal '0' = some 0 from rfl, hexVal_hexLowerDigit _ hd1,
          hexVal_hexLowerDigit _ hd2]
        simp only []
        have hu : ((0 * 16 + 0) * 16 + c.toNat / 16) * 16 + c.toNat % 16 = c.toNat := by
          omega
        rw [hu]
        rw [if_neg (by simp; omega), if_neg (by simp; omega)]
        rw [ihx, Char.ofNat_toNat]
        rfl
      · rw [show escChar c = [c] by
          rw [escChar]
          simp [h1, h2, h3, h4, h5, h6, h7, h8]]
        rw [show ([c] : List Char) ++ (escStr s' ++ '"' :: rest) =
          c :: (escStr s' ++ '"' :: rest) from rfl]
        rw [parseStrGo_plain f c _ h1 h2 h8, ihx]
        rfl

theorem parseStr_esc (s : List Char) (rest : List Char) :
    parseStr (escStr s ++ '"' :: rest) = some (s, rest) := by
  rw [parseStr]
  apply parseStrGo_esc
  have h1 := escStr_length s
  have h2 : (escStr s ++ '"' :: rest).length = (escStr s).length + (rest.length + 1) := by
    simp
  omega


mutual

/-- Fuel needed by the reader to consume a serialized value. -/
def jfuel : J → Nat
  | J.null => 1
  | J.bool _ => 1
  | J.num _ => 1
  | J.str _ => 1
  | J.arr xs => 2 + jfuelItems xs
  | J.obj kvs => 2 + jfuelMembers kvs

/-- Fuel needed for a serialized element list. -/
def jfuelItems : List J → Nat
  | [] => 0
  | x :: t => 1 + jfuel x + jfuelItems t

/-- Fuel needed for a serialized member list. -/
def jfuelMembers : List (List Char × J) → Nat
  | [] => 0
  | (_, v) :: t => 1 + jfuel v + jfuelMembers t

end

theorem jfuel_pos (v : J) : 1 ≤ jfuel v := by
  cases v <;> simp [jfuel] <;> omega

/-- The separator-plus-tail part of a serialized element list. -/
def serItemsSep : List J → List Char
  | [] => []
  | y :: t => ", ".data ++ serItems (y :: t)

/-- The separator-plus-tail part of a serialized member list. -/
def serMembersSep : List (List Char × J) → List Char
  | [] => []
  | p :: t => ", ".data ++ serMembers (p :: t)

theorem serItems_cons (x : J) (t : List J) :
    serItems (x :: t) = ser x ++ serItemsSep t := by
  cases t with
  | nil => simp [serItems, serItemsSep]
  | cons y t2 => simp [serItems, serItemsSep]

theorem serMembers_cons (k : List Char) (v : J) (t : List (List Char × J)) :
    serMembers ((k, v) :: t) =
      '"' :: (escStr k ++ '"' :: ':' :: ' ' :: (ser v ++ serMembersSep t)) := by
  cases t with
  | nil => simp [serMembers, serMembersSep]
  | cons p t2 => simp [serMembers, serMembersSep]

theorem ser_shape (v : J) : ∃ c cs, ser v = c :: cs ∧
    (c = '"' ∨ c = '{' ∨ c = '[' ∨ c = 'n' ∨ c = 't' ∨ c = 'f' ∨ c = '-' ∨
      (48 ≤ c.toNat ∧ c.toNat ≤ 57)) := by
  cases v with
  | null => exact ⟨'n', "ull".data, rfl, by simp⟩
  | bool b =>
    cases b with
    | true => exact ⟨'t', "rue".data, rfl, by simp⟩
    | false => exact ⟨'f', "alse".data, rfl, by simp⟩
  | num n =>
    by_cases hn : n < 0
    · exact ⟨'-', natDigits (-n).toNat, by rw [ser, intChars, if_pos hn], by simp⟩
    · obtain ⟨c, cs, hgo, hc1, hc2⟩ := natDigitsGo_head (n.toNat + 1) n.toNat (by omega)
      refine ⟨c, cs, ?_, by omega⟩
      rw [ser, intChars, if_neg hn, natDigits, hgo]
  | str s => exact ⟨'"', _, rfl, by simp⟩
  | arr xs => exact ⟨'[', _, rfl, by simp⟩
  | obj kvs => exact ⟨'{', _, rfl, by simp⟩

theorem ser_head_cond (v : J) (p : Char → Bool)
    (h1 : p '"' = false) (h2 : p '{' = false) (h3 : p '[' = false)
    (h4 : p 'n' = false) (h5 : p 't' = false) (h6 : p 'f' = false)
    (h7 : p '-' = false)
    (h8 : ∀ c : Char, 48 ≤ c.toNat → c.toNat ≤ 57 → p c = false) :
    ∃ c cs, ser v = c :: cs ∧ p c = false := by
  obtain ⟨c, cs, hser, hd⟩ := ser_shape v
  refine ⟨c, cs, hser, ?_⟩
  rcases hd with h | h | h | h | h | h | h | h
  all_goals first
  | (subst h; assumption)
  | (exact h8 c h.1 h.2)

theorem skipWsJ_ser (v : J) (r : List Char) :
    skipWsJ (ser v ++ r) = ser v ++ r := by
  obtain ⟨c, cs, hser, hd⟩ := ser_head_cond v (fun c => jsonWs c)
    rfl rfl rfl rfl rfl rfl rfl
    (by
      intro c hc1 hc2
      simp only [jsonWs, Bool.or_eq_false_iff, decide_eq_false_iff_not]
      refine ⟨⟨⟨?_, ?_⟩, ?_⟩, ?_⟩ <;> intro hEq <;> subst hEq <;> simp_all)
  rw [hser, List.cons_append, skipWsJ_of_head c _ hd]

theorem headIs_ser (v : J) (r : List Char) (d : Char)
    (hd : d = ']' ∨ d = '}' ∨ d = ',') :
    headIs d (ser v ++ r) = false := by
  obtain ⟨c, cs, hser, hdisj⟩ := ser_shape v
  rw [hser, List.cons_append]
  simp only [headIs, decide_eq_false_iff_not]
  intro hEq
  subst hEq
  rcases hd with h | h | h <;> subst h <;>
    rcases hdisj with h2 | h2 | h2 | h2 | h2 | h2 | h2 | h2 <;>
    exact absurd h2 (by decide)

theorem pyInsert_fresh (acc : List (List Char × J)) (k : List Char) (v : J)
    (h : ∀ p ∈ acc, p.1 ≠ k) : pyInsert acc k v = acc ++ [(k, v)] := by
  induction acc with
  | nil => rfl
  | cons q t ih =>
    obtain ⟨k2, v2⟩ := q
    have hne : k2 ≠ k := h (k2, v2) (List.mem_cons_self _ _)
    rw [pyInsert, if_neg hne, ih (fun p hp => h p (List.mem_cons_of_mem _ hp))]
    rfl

theorem mkDict_go (ps : List (List Char × J)) :
    ∀ acc, keysFresh (ps.map Prod.fst) = true →
    (∀ p ∈ acc, ∀ q ∈ ps, p.1 ≠ q.1) →
    ps.foldl (fun acc p => pyInsert acc p.1 p.2) acc = acc ++ ps := by
  induction ps with
  | nil =>
    intro acc _ _
    simp
  | cons q t ih =>
    intro acc hf hdisj
    obtain ⟨k, v⟩ := q
    simp only [List.map_cons, keysFresh, Bool.and_eq_true] at hf
    have hkmem : k ∉ t.map Prod.fst := by
      intro hmem
      have hc := hf.1
      rw [Bool.not_eq_eq_eq_not, Bool.not_true] at hc
      rw [List.contains_eq_any_beq] at hc
      simp only [List.any_eq_false] at hc
      have hfalse := hc k hmem
      simp at hfalse
    have hins : pyInsert acc k v = acc ++ [(k, v)] :=
      pyInsert_fresh acc k v (fun p hp => hdisj p hp (k, v) (List.mem_cons_self _ _))
    rw [List.foldl_cons]
    simp only at hins
    rw [hins]
    rw [ih (acc ++ [(k, v)]) hf.2 ?hdd]
    · simp
    case hdd =>
      intro p hp q2 hq2
      rcases List.mem_append.mp hp with hp1 | hp2
      · exact hdisj p hp1 q2 (List.mem_cons_of_mem _ hq2)
      · simp only [List.mem_singleton] at hp2
        subst hp2
        intro hEq
        simp only at hEq
        refine hkmem ?_
        rw [hEq]
        exact List.mem_map_of_mem Prod.fst hq2

theorem mkDict_id (ps : List (List Char × J))
    (h : keysFresh (ps.map Prod.fst) = true) : mkDict ps = ps := by
  have hgo := mkDict_go ps [] h (by intro p hp; simp at hp)
  simpa [mkDict] using hgo


theorem stopOk_sepItems (t : List J) (rest : List Char) :
    stopOk (serItemsSep t ++ ']' :: rest) = true := by
  cases t <;> rfl

theorem stopOk_sepMembers (t : List (List Char × J)) (rest : List Char) :
    stopOk (serMembersSep t ++ '}' :: rest) = true := by
  cases t <;> rfl

theorem parseValue_default (f : Nat) (c : Char) (t : List Char)
    (h1 : ¬ c = '"') (h2 : ¬ c = '{') (h3 : ¬ c = '[') (h4 : ¬ c = 'n')
    (h5 : ¬ c = 't') (h6 : ¬ c = 'f') :
    parseValue (f + 1) (c :: t) =
      match parseNumber (c :: t) with
      | some (n, r) => some (J.num n, r)
      | none => none := by
  rw [parseValue, parseValueStep.eq_def]
  simp only []
  rw [if_neg h1, if_neg h2, if_neg h3, if_neg h4, if_neg h5, if_neg h6]

theorem parse_ser_all : ∀ fuel : Nat,
    (∀ v rest, wfJ v = true → jfuel v ≤ fuel → stopOk rest = true →
      parseValue fuel (ser v ++ rest) = some (v, rest)) ∧
    (∀ xs rest, wfArr xs = true → 1 + jfuelItems xs ≤ fuel →
      parseElemsTop fuel (serItems xs ++ ']' :: rest) = some (xs, rest)) ∧
    (∀ xs rest, xs ≠ [] → wfArr xs = true → jfuelItems xs ≤ fuel →
      parseElemList fuel (serItems xs ++ ']' :: rest) = some (xs, rest)) ∧
    (∀ kvs rest, wfMembers kvs = true → 1 + jfuelMembers kvs ≤ fuel →
      parseMembersTop fuel (serMembers kvs ++ '}' :: rest) = some (kvs, rest)) ∧
    (∀ kvs rest X, kvs ≠ [] → wfMembers kvs = true → jfuelMembers kvs ≤ fuel →
      serMembers kvs = '"' :: X →
      parseMemberList fuel (X ++ '}' :: rest) = some (kvs, rest)) := by
  intro fuel
  induction fuel using Nat.strong_induction_on with
  | _ fuel ih =>
  cases fuel with
  | zero =>
    refine ⟨?_, ?_, ?_, ?_, ?_⟩
    · intro v rest _ hfu _
      have := jfuel_pos v
      omega
    · intro xs rest _ hfu
      omega
    · intro xs rest hne hwf hfu
      cases xs with
      | nil => exact absurd rfl hne
      | cons x t =>
        simp only [jfuelItems] at hfu
        omega
    · intro kvs rest _ hfu
      omega
    · intro kvs rest X hne hwf hfu hX
      cases kvs with
      | nil => exact absurd rfl hne
      | cons q t =>
        obtain ⟨k, v⟩ := q
        simp only [jfuelMembers] at hfu
        omega
  | succ f =>
  obtain ⟨ihV, ihET, ihEL, ihMT, ihML⟩ := ih f (Nat.lt_succ_self f)
  refine ⟨?_, ?_, ?_, ?_, ?_⟩
  -- parseValue
  · intro v rest hwf hfu hstop
    cases v with
    | null =>
      rw [show ser J.null ++ rest = 'n' :: 'u' :: 'l' :: 'l' :: rest from rfl]
      rw [parseValue, parseValueStep.eq_def]
      simp
    | bool b =>
      cases b with
      | true =>
        rw [show ser (J.bool true) ++ rest = 't' :: 'r' :: 'u' :: 'e' :: rest from rfl]
        rw [parseValue, parseValueStep.eq_def]
        simp
      | false =>
        rw [show ser (J.bool false) ++ rest =
          'f' :: 'a' :: 'l' :: 's' :: 'e' :: rest from rfl]
        rw [parseValue, parseValueStep.eq_def]
        simp
    | num n =>
      have hs : ser (J.num n) = intChars n := rfl
      have hpn := parseNumber_intChars n rest hstop
      rw [hs]
      by_cases hn : n < 0
      · rw [intChars, if_pos hn, List.cons_append]
        rw [parseValue_default f '-' _ (by decide) (by decide) (by decide)
          (by decide) (by decide) (by decide)]
        rw [intChars, if_pos hn, List.cons_append] at hpn
        rw [hpn]
      · obtain ⟨c, cs, hgo, hc1, hc2⟩ :=
          natDigitsGo_head (n.toNat + 1) n.toNat (by omega)
        rw [intChars, if_neg hn, natDigits, hgo, List.cons_append]
        rw [parseValue_default f c _
          (by intro hEq; rw [hEq] at hc1; exact absurd hc1 (by decide))
          (by intro hEq; rw [hEq] at hc2; exact absurd hc2 (by decide))
          (by intro hEq; rw [hEq] at hc2; exact absurd hc2 (by decide))
          (by intro hEq; rw [hEq] at hc2; exact absurd hc2 (by decide))
          (by intro hEq; rw [hEq] at hc2; exact absurd hc2 (by decide))
          (by intro hEq; rw [hEq] at hc2; exact absurd hc2 (by decide))]
        rw [intChars, if_neg hn, natDigits, hgo, List.cons_append] at hpn
        rw [hpn]
    | str s =>
      have hs : ser (J.str s) = '"' :: (escStr s ++ ['"']) := rfl
      rw [hs, List.cons_append]
      rw [parseValue, parseValueStep.eq_def]
      simp only []
      rw [if_pos (by decide)]
      rw [List.append_assoc, List.singleton_append, parseStr_esc]
    | arr xs =>
      have hs : ser (J.arr xs) = '[' :: (serItems xs ++ [']']) := rfl
      rw [hs, List.cons_append]
      rw [parseValue, parseValueStep.eq_def]
      simp only []
      rw [if_neg (by decide), if_neg (by decide), if_pos (by decide)]
      rw [List.append_assoc, List.singleton_append]
      have hwf2 : wfArr xs = true := by
        rw [wfJ] at hwf
        exact hwf
      have hfu2 : 1 + jfuelItems xs ≤ f := by
        rw [jfuel] at hfu
        omega
      rw [ihET xs rest hwf2 hfu2]
    | obj kvs =>
      have hs : ser (J.obj kvs) = '{' :: (serMembers kvs ++ ['}']) := rfl
      rw [hs, List.cons_append]
      rw [parseValue, parseValueStep.eq_def]
      simp only []
      rw [if_neg (by decide), if_pos (by decide)]
      rw [List.append_assoc, List.singleton_append]
      rw [wfJ, Bool.and_eq_true] at hwf
      have hfu2 : 1 + jfuelMembers kvs ≤ f := by
        rw [jfuel] at hfu
        omega
      rw [ihMT kvs rest hwf.2 hfu2]
      simp only []
      rw [mkDict_id kvs hwf.1]
  -- parseElemsTop
  · intro xs rest hwf hfu
    cases xs with
    | nil =>
      rw [show serItems [] ++ ']' :: rest = ']' :: rest from rfl]
      rw [parseElemsTop, parseElemsTopStep]
      simp [skipWsJ, jsonWs, headIs]
    | cons x t =>
      rw [serItems_cons, List.append_assoc]
      rw [parseElemsTop, parseElemsTopStep]
      rw [skipWsJ_ser x (serItemsSep t ++ ']' :: rest)]
      rw [if_neg (by rw [headIs_ser x _ ']' (Or.inl rfl)]; simp)]
      rw [← List.append_assoc, ← serItems_cons]
      exact ihEL (x :: t) rest (by simp) hwf (by omega)
  -- parseElemList
  · intro xs rest hne hwf hfu
    cases xs with
    | nil => exact absurd rfl hne
    | cons x t =>
      rw [serItems_cons, List.append_assoc]
      rw [parseElemList, parseElemListStep]
      rw [wfArr, Bool.and_eq_true] at hwf
      simp only [jfuelItems] at hfu
      rw [ihV x (serItemsSep t ++ ']' :: rest) hwf.1 (by omega)
        (stopOk_sepItems t rest)]
      simp only []
      cases t with
      | nil =>
        rw [show serItemsSep [] ++ ']' :: rest = ']' :: rest from rfl]
        rw [skipWsJ_of_head ']' rest (by decide)]
        rw [if_neg (by simp [headIs]), if_pos (by simp [headIs])]
        rfl
      | cons y t2 =>
        rw [show serItemsSep (y :: t2) ++ ']' :: rest =
          ',' :: ' ' :: (serItems (y :: t2) ++ ']' :: rest) by
            simp [serItemsSep]]
        rw [skipWsJ_of_head ',' _ (by decide)]
        rw [if_pos (by simp [headIs])]
        simp only [List.tail_cons]
        rw [skipWsJ_space]
        rw [serItems_cons, List.append_assoc, skipWsJ_ser y _]
        rw [← List.append_assoc, ← serItems_cons]
        rw [ihEL (y :: t2) rest (by simp) hwf.2 (by omega)]
  -- parseMembersTop
  · intro kvs rest hwf hfu
    cases kvs with
    | nil =>
      rw [show serMembers [] ++ '}' :: rest = '}' :: rest from rfl]
      rw [parseMembersTop, parseMembersTopStep]
      simp [skipWsJ, jsonWs, headIs]
    | cons q t =>
      obtain ⟨k, v⟩ := q
      rw [serMembers_cons, List.cons_append]
      rw [parseMembersTop, parseMembersTopStep]
      rw [skipWsJ_of_head '"' _ (by decide)]
      rw [if_neg (by simp [headIs]), if_pos (by simp [headIs])]
      simp only [List.tail_cons]
      exact ihML ((k, v) :: t) rest _ (by simp) hwf (by omega)
        (serMembers_cons k v t)
  -- parseMemberList
  · intro kvs rest X hne hwf hfu hX
    cases kvs with
    | nil => exact absurd rfl hne
    | cons q t =>
      obtain ⟨k, v⟩ := q
      rw [serMembers_cons] at hX
      have hX2 : X = escStr k ++ '"' :: ':' :: ' ' :: (ser v ++ serMembersSep t) := by
        exact ((List.cons.injEq _ _ _ _).mp hX).2.symm
      subst hX2
      rw [wfMembers, Bool.and_eq_true] at hwf
      simp only [jfuelMembers] at hfu
      rw [parseMemberList, parseMemberListStep.eq_def]
      rw [show (escStr k ++ '"' :: ':' :: ' ' :: (ser v ++ serMembersSep t)) ++
          '}' :: rest =
        escStr k ++ '"' :: (':' :: ' ' :: (ser v ++ (serMembersSep t ++ '}' :: rest))) by
          simp]
      rw [parseStr_esc]
      simp only []
      rw [skipWsJ_of_head ':' _ (by decide)]
      rw [if_pos (by simp [headIs])]
      simp only [List.tail_cons]
      rw [skipWsJ_space, skipWsJ_ser v _]
      rw [ihV v (serMembersSep t ++ '}' :: rest) hwf.1 (by omega)
        (stopOk_sepMembers t rest)]
      simp only []
      cases t with
      | nil =>
        rw [show serMembersSep [] ++ '}' :: rest = '}' :: rest from rfl]
        rw [skipWsJ_of_head '}' rest (by decide)]
        rw [if_neg (by simp [headIs]), if_pos (by simp [headIs])]
        rfl
      | cons p t2 =>
        obtain ⟨k2, v2⟩ := p
        rw [show serMembersSep ((k2, v2) :: t2) ++ '}' :: rest =
          ',' :: ' ' :: (serMembers ((k2, v2) :: t2) ++ '}' :: rest) by
            simp [serMembersSep]]
        rw [skipWsJ_of_head ',' _ (by decide)]
        rw [if_pos (by simp [headIs])]
        simp only [List.tail_cons]
        rw [skipWsJ_space]
        rw [serMembers_cons, List.cons_append]
        rw [skipWsJ_of_head '"' _ (by decide)]
        rw [if_pos (by simp [headIs])]
        simp only [List.tail_cons]
        rw [ihML ((k2, v2) :: t2) rest _ (by simp) hwf.2 (by omega)
          (serMembers_cons k2 v2 t2)]



mutual

theorem jfuel_le : ∀ v : J, jfuel v ≤ 3 * (ser v).length
  | J.null => by simp [jfuel, ser]
  | J.bool true => by simp [jfuel, ser]
  | J.bool false => by simp [jfuel, ser]
  | J.num n => by
    have h1 : 1 ≤ (natDigits (-n).toNat).length := by
      rcases hl : natDigits (-n).toNat with _ | ⟨c, cs⟩
      · exact absurd hl (natDigitsGo_ne_nil _ _ (by omega))
      · simp
    have h2 : 1 ≤ (natDigits n.toNat).length := by
      rcases hl : natDigits n.toNat with _ | ⟨c, cs⟩
      · exact absurd hl (natDigitsGo_ne_nil _ _ (by omega))
      · simp
    have hs : ser (J.num n) = intChars n := rfl
    rw [hs, jfuel, intChars]
    split
    · simp only [List.length_cons]
      omega
    · omega
  | J.str s => by
    have hs : ser (J.str s) = '"' :: (escStr s ++ ['"']) := rfl
    rw [hs, jfuel]
    simp only [List.length_cons, List.length_append, List.length_singleton]
    omega
  | J.arr xs => by
    have h := jfuelItems_le xs
    have hs : ser (J.arr xs) = '[' :: (serItems xs ++ [']']) := rfl
    rw [hs, jfuel]
    simp only [List.length_cons, List.length_append, List.length_singleton]
    omega
  | J.obj kvs => by
    have h := jfuelMembers_le kvs
    have hs : ser (J.obj kvs) = '{' :: (serMembers kvs ++ ['}']) := rfl
    rw [hs, jfuel]
    simp only [List.length_cons, List.length_append, List.length_singleton]
    omega

theorem jfuelItems_le : ∀ xs : List J, jfuelItems xs ≤ 3 * (serItems xs).length + 1
  | [] => by simp [jfuelItems, serItems]
  | [x] => by
    have h := jfuel_le x
    simp only [jfuelItems, serItems]
    omega
  | x :: y :: t => by
    have h1 := jfuel_le x
    have h2 := jfuelItems_le (y :: t)
    rw [jfuelItems, serItems_cons, serItemsSep]
    simp only [List.length_append, List.length_cons, List.length_nil]
    omega

theorem jfuelMembers_le :
    ∀ kvs : List (List Char × J), jfuelMembers kvs ≤ 3 * (serMembers kvs).length + 1
  | [] => by simp [jfuelMembers, serMembers]
  | [(k, v)] => by
    have h := jfuel_le v
    simp only [jfuelMembers, serMembers, List.length_cons, List.length_append]
    omega
  | (k, v) :: p :: t => by
    have h1 := jfuel_le v
    have h2 := jfuelMembers_le (p :: t)
    rw [jfuelMembers, serMembers_cons, serMembersSep]
    simp only [List.length_append, List.length_cons, List.length_nil]
    omega

end

/-- `json.loads` inverts `json.dumps` on well-formed documents. -/
theorem jsonLoads_ser (v : J) (h : wfJ v = true) : jsonLoads (ser v) = some v := by
  rw [jsonLoads]
  have hskip : skipWsJ (ser v) = ser v := by
    have hx := skipWsJ_ser v []
    simpa using hx
  rw [hskip]
  have hfuel : jfuel v ≤ 3 * (ser v).length + 3 := by
    have := jfuel_le v
    omega
  have hparse := (parse_ser_all (3 * (ser v).length + 3)).1 v [] h hfuel rfl
  rw [List.append_nil] at hparse
  rw [hparse]
  rfl



/-! ### UTF-16 big-endian and hexadecimal layers -/

/-- UTF-16BE code units of one scalar value (2 bytes below `0x10000`,
else a surrogate pair, 4 bytes). -/
def utf16beChar (c : Char) : List Nat :=
  if c.toNat < 65536 then [c.toNat / 256, c.toNat % 256]
  else
    [(55296 + (c.toNat - 65536) / 1024) / 256,
     (55296 + (c.toNat - 65536) / 1024) % 256,
     (56320 + (c.toNat - 65536) % 1024) / 256,
     (56320 + (c.toNat - 65536) % 1024) % 256]

/-- Python `s.encode('utf-16-be')`. -/
def utf16be (s : List Char) : List Nat := (s.map utf16beChar).flatten

/-- Python `bytes.decode('utf-16-be')`: big-endian pairs, surrogate pairs
combined, truncated data and lone surrogates are errors. -/
def utf16beDecode : List Nat → Option (List Char)
  | [] => some []
  | [_] => none
  | b1 :: b2 :: t =>
    let u := b1 * 256 + b2
    if 55296 ≤ u ∧ u ≤ 56319 then
      match t with
      | b3 :: b4 :: t2 =>
        let w := b3 * 256 + b4
        if 56320 ≤ w ∧ w ≤ 57343 then
          match utf16beDecode t2 with
          | some s => some (Char.ofNat (65536 + (u - 55296) * 1024 + (w - 56320)) :: s)
          | none => none
        else none
      | _ => none
    else if 56320 ≤ u ∧ u ≤ 57343 then none
    else
      match utf16beDecode t with
      | some s => some (Char.ofNat u :: s)
      | none => none

theorem char_valid_nat (c : Char) : c.toNat < 55296 ∨ (57343 < c.toNat ∧ c.toNat < 1114112) := by
  have h := c.valid
  rcases h with h | h
  · left
    exact h
  · right
    exact h

theorem utf16beDecode_encode (s : List Char) :
    utf16beDecode (utf16be s) = some s := by
  induction s with
  | nil => rfl
  | cons c t ih =>
    have hsplit : utf16be (c :: t) = utf16beChar c ++ utf16be t := by
      simp [utf16be]
    rw [hsplit]
    by_cases hsmall : c.toNat < 65536
    · rw [utf16beChar, if_pos hsmall]
      have hb1 : c.toNat / 256 * 256 + c.toNat % 256 = c.toNat := by omega
      rw [show ([c.toNat / 256, c.toNat % 256] : List Nat) ++ utf16be t =
        c.toNat / 256 :: c.toNat % 256 :: utf16be t from rfl]
      rw [utf16beDecode.eq_def]
      simp only []
      rw [hb1]
      have hns : c.toNat < 55296 ∨ 57343 < c.toNat := by
        rcases char_valid_nat c with hv | hv
        · exact Or.inl hv
        · exact Or.inr hv.1
      rcases hns with hns | hns
      · rw [if_neg (by omega), if_neg (by omega), ih, Char.ofNat_toNat]
      · rw [if_neg (by omega), if_neg (by omega), ih, Char.ofNat_toNat]
    · have hv : c.toNat < 1114112 := by
        rcases char_valid_nat c with hv | hv
        · omega
        · exact hv.2
      rw [utf16beChar, if_neg hsmall]
      have hhi : (55296 + (c.toNat - 65536) / 1024) / 256 * 256 +
          (55296 + (c.toNat - 65536) / 1024) % 256 = 55296 + (c.toNat - 65536) / 1024 := by
        omega
      have hlo : (56320 + (c.toNat - 65536) % 1024) / 256 * 256 +
          (56320 + (c.toNat - 65536) % 1024) % 256 = 56320 + (c.toNat - 65536) % 1024 := by
        omega
      have hq : (c.toNat - 65536) / 1024 ≤ 1023 := by omega
      have hm : (c.toNat - 65536) % 1024 ≤ 1023 := by omega
      rw [show ([(55296 + (c.toNat - 65536) / 1024) / 256,
          (55296 + (c.toNat - 65536) / 1024) % 256,
          (56320 + (c.toNat - 65536) % 1024) / 256,
          (56320 + (c.toNat - 65536) % 1024) % 256] : List Nat) ++ utf16be t =
        (55296 + (c.toNat - 65536) / 1024) / 256 ::
          (55296 + (c.toNat - 65536) / 1024) % 256 ::
          ((56320 + (c.toNat - 65536) % 1024) / 256 ::
            (56320 + (c.toNat - 65536) % 1024) % 256 :: utf16be t) from rfl]
      rw [utf16beDecode.eq_def]
      simp only []
      rw [hhi, if_pos (by omega)]
      rw [hlo, if_pos (by omega), ih]
      have hval : 65536 + (55296 + (c.toNat - 65536) / 1024 - 55296) * 1024 +
          (56320 + (c.toNat - 65536) % 1024 - 56320) = c.toNat := by
        omega
      rw [hval, Char.ofNat_toNat]

/-- `bytes.hex()` of one byte: two lowercase hex digits. -/
def hexPair (b : Nat) : List Char := [hexLowerDigit (b / 16), hexLowerDigit (b % 16)]

/-- Python `bytes.hex()`. -/
def bytesHex (bs : List Nat) : List Char := (bs.map hexPair).flatten

/-- ASCII uppercasing of one character (`str.upper`; the strings it is
applied to here are hexadecimal, hence ASCII). -/
def pyUpperChar (c : Char) : Char :=
  if 97 ≤ c.toNat && c.toNat ≤ 122 then Char.ofNat (c.toNat - 32) else c

/-- Python `s.upper()` on ASCII text. -/
def pyUpper (s : List Char) : List Char := s.map pyUpperChar

/-- ASCII whitespace ignored by `bytes.fromhex` between byte pairs. -/
def fhWs (c : Char) : Bool :=
  c.toNat = 32 || c.toNat = 9 || c.toNat = 10 || c.toNat = 11 ||
    c.toNat = 12 || c.toNat = 13

/-- Skip `bytes.fromhex` whitespace. -/
def skipFhWs : List Char → List Char
  | [] => []
  | c :: t => if fhWs c then skipFhWs t else c :: t

/-- Fueled body of `bytes.fromhex`: two hex digits per byte, ASCII
whitespace permitted only between byte pairs. -/
def pyFromhexGo : Nat → List Char → Option (List Nat)
  | 0, _ => none
  | fuel + 1, cs =>
    match skipFhWs cs with
    | [] => some []
    | c1 :: t =>
      match t with
      | c2 :: t2 =>
        match hexVal c1, hexVal c2 with
        | some a, some b =>
          match pyFromhexGo fuel t2 with
          | some bs => some ((a * 16 + b) :: bs)
          | none => none
        | _, _ => none
      | [] => none

/-- Python `bytes.fromhex`. -/
def pyFromhex (cs : List Char) : Option (List Nat) :=
  pyFromhexGo (cs.length + 1) cs

theorem hexVal_upper_hexLowerDigit (n : Nat) (h : n < 16) :
    hexVal (pyUpperChar (hexLowerDigit n)) = some n := by
  by_cases h10 : n < 10
  · have hd : (digitChar n).toNat = 48 + n := digitChar_toNat n h10
    rw [hexLowerDigit, if_pos h10, pyUpperChar, if_neg (by rw [hd]; simp; omega)]
    rw [hexVal, hd, if_pos (by simp; omega)]
    simp
  · have hch : (Char.ofNat (87 + n)).toNat = 87 + n := toNat_ofNat_small _ (by omega)
    rw [hexLowerDigit, if_neg h10, pyUpperChar, if_pos (by rw [hch]; simp; omega)]
    rw [hch]
    have hch2 : (Char.ofNat (87 + n - 32)).toNat = 87 + n - 32 :=
      toNat_ofNat_small _ (by omega)
    rw [hexVal, hch2]
    rw [if_neg (by simp; omega), if_neg (by simp; omega), if_pos (by simp; omega)]
    simp only [Option.some.injEq]
    omega

theorem hexUpper_not_ws (n : Nat) (h : n < 16) :
    fhWs (pyUpperChar (hexLowerDigit n)) = false := by
  by_cases h10 : n < 10
  · have hd : (digitChar n).toNat = 48 + n := digitChar_toNat n h10
    rw [hexLowerDigit, if_pos h10, pyUpperChar, if_neg (by rw [hd]; simp; omega)]
    rw [fhWs, hd]
    simp
    omega
  · have hch : (Char.ofNat (87 + n)).toNat = 87 + n := toNat_ofNat_small _ (by omega)
    rw [hexLowerDigit, if_neg h10, pyUpperChar, if_pos (by rw [hch]; simp; omega)]
    have hch2 : (Char.ofNat (87 + n - 32)).toNat = 87 + n - 32 :=
      toNat_ofNat_small _ (by omega)
    rw [fhWs, hch, hch2]
    simp
    omega

theorem pyFromhexGo_hex (bs : List Nat) : ∀ fuel, bs.length < fuel →
    (∀ b ∈ bs, b < 256) →
    pyFromhexGo fuel (pyUpper (bytesHex bs)) = some bs := by
  induction bs with
  | nil =>
    intro fuel hf _
    cases fuel with
    | zero => omega
    | succ f => rfl
  | cons b t ih =>
    intro fuel hf hb
    cases fuel with
    | zero => simp at hf
    | succ f =>
      have hbb : b < 256 := hb b (List.mem_cons_self _ _)
      have hsplit : pyUpper (bytesHex (b :: t)) =
          pyUpperChar (hexLowerDigit (b / 16)) ::
            pyUpperChar (hexLowerDigit (b % 16)) :: pyUpper (bytesHex t) := by
        simp [pyUpper, bytesHex, hexPair]
      rw [hsplit, pyFromhexGo.eq_def]
      simp only []
      rw [skipFhWs, if_neg (by rw [hexUpper_not_ws (b / 16) (by omega)]; simp)]
      simp only []
      rw [hexVal_upper_hexLowerDigit (b / 16) (by omega),
        hexVal_upper_hexLowerDigit (b % 16) (by omega)]
      simp only []
      rw [ih f (by simp at hf; omega) (fun x hx => hb x (List.mem_cons_of_mem _ hx))]
      have hval : b / 16 * 16 + b % 16 = b := by omega
      rw [hval]

theorem bytesHex_length (bs : List Nat) : (bytesHex bs).length = 2 * bs.length := by
  induction bs with
  | nil => rfl
  | cons b t ih =>
    simp [bytesHex, hexPair] at ih ⊢
    omega

theorem pyFromhex_hex (bs : List Nat) (hb : ∀ b ∈ bs, b < 256) :
    pyFromhex (pyUpper (bytesHex bs)) = some bs := by
  rw [pyFromhex]
  apply pyFromhexGo_hex bs _ _ hb
  have h1 : (pyUpper (bytesHex bs)).length = (bytesHex bs).length := by
    simp [pyUpper]
  have h2 := bytesHex_length bs
  omega



/-! ### The embedded-data codec (pdf_resume_updater.py)

Byte strings are `List Nat`.  The three tolerant `/ecv-data` patterns of
`extract_json_data` (lines 35-39) and the two replacement patterns of
`save_pdf` (lines 304-307) are modelled as explicit scanners with Python
`re` semantics: leftmost match, greedy `\s*` (no backtracking can help
before a non-whitespace literal), and `[^>]+>` capturing everything up to
the first `>`. -/

/-- The bytes of the field name token `/ecv-data`. -/
def ecvToken : List Nat := "/ecv-data".data.map Char.toNat

/-- Byte-pattern whitespace (`\s` in a bytes regex): `[ \t\n\r\f\v]`. -/
def bWs (b : Nat) : Bool :=
  b = 32 || b = 9 || b = 10 || b = 13 || b = 12 || b = 11

/-- Greedily skip byte whitespace (`\s*`). -/
def skipBWs : List Nat → List Nat
  | [] => []
  | b :: t => if bWs b then skipBWs t else b :: t

/-- Match a literal byte sequence, returning the remainder. -/
def matchLit : List Nat → List Nat → Option (List Nat)
  | [], bs => some bs
  | _ :: _, [] => none
  | l :: lt, b :: bt => if b = l then matchLit lt bt else none

/-- Maximal run of bytes other than `>` (62), plus the remainder. -/
def takeNonGt : List Nat → List Nat × List Nat
  | [] => ([], [])
  | b :: t =>
    if b = 62 then ([], b :: t)
    else
      match takeNonGt t with
      | (r, rest) => (b :: r, rest)

/-- `/ecv-data\s*<FEFF([^>]+)>` at the head: captured group and
remainder after the match. -/
def matchP1 (bs : List Nat) : Option (List Nat × List Nat) :=
  match matchLit ecvToken bs with
  | none => none
  | some r1 =>
    match matchLit [60, 70, 69, 70, 70] (skipBWs r1) with
    | none => none
    | some r3 =>
      match takeNonGt r3 with
      | (g, rest) =>
        match rest with
        | 62 :: r4 => if g.isEmpty then none else some (g, r4)
        | _ => none

/-- `/ecv-data\s*<FE\s*FF([^>]+)>` at the head. -/
def matchP2 (bs : List Nat) : Option (List Nat × List Nat) :=
  match matchLit ecvToken bs with
  | none => none
  | some r1 =>
    match matchLit [60, 70, 69] (skipBWs r1) with
    | none => none
    | some r3 =>
      match matchLit [70, 70] (skipBWs r3) with
      | none => none
      | some r4 =>
        match takeNonGt r4 with
        | (g, rest) =>
          match rest with
          | 62 :: r5 => if g.isEmpty then none else some (g, r5)
          | _ => none

/-- Number of leading whitespace bytes. -/
def countBWs : List Nat → Nat
  | [] => 0
  | b :: t => if bWs b then countBWs t + 1 else 0

/-- `/ecv-data\s*<FE\s*FF\s*([^>]+)>` at the head.  The greedy `\s*`
before the group backtracks one byte when the byte right after the
whitespace run is the terminator, exactly as Python's engine does. -/
def matchP3 (bs : List Nat) : Option (List Nat × List Nat) :=
  match matchLit ecvToken bs with
  | none => none
  | some r1 =>
    match matchLit [60, 70, 69] (skipBWs r1) with
    | none => none
    | some r3 =>
      match matchLit [70, 70] (skipBWs r3) with
      | none => none
      | some r4 =>
        match takeNonGt (skipBWs r4) with
        | (g, rest) =>
          match rest with
          | 62 :: r5 =>
            if g.isEmpty then
              match (r4.take (countBWs r4)).getLast? with
              | some wb => some ([wb], r5)
              | none => none
            else some (g, r5)
          | _ => none

/-- Leftmost search for a matcher over the whole byte string. -/
def searchWith (m : List Nat → Option (List Nat × List Nat)) :
    List Nat → Option (List Nat × List Nat)
  | [] =>
    match m [] with
    | some r => some r
    | none => none
  | b :: t =>
    match m (b :: t) with
    | some r => some r
    | none => searchWith m t

/-- `re.sub` with the given matcher and replacement: leftmost,
non-overlapping, scanning resumes after each matched span. -/
def reSubGo (m : List Nat → Option (List Nat × List Nat)) (repl : List Nat) :
    Nat → List Nat → List Nat
  | 0, bs => bs
  | _ + 1, [] =>
    match m [] with
    | some (_, rest) => repl ++ rest
    | none => []
  | fuel + 1, b :: t =>
    match m (b :: t) with
    | some (_, rest) => repl ++ reSubGo m repl fuel rest
    | none => b :: reSubGo m repl fuel t

/-- `re.sub` over a byte string (the fuel always suffices because every
match consumes at least the token). -/
def reSub (m : List Nat → Option (List Nat × List Nat)) (repl : List Nat)
    (bs : List Nat) : List Nat :=
  reSubGo m repl (bs.length + 1) bs

/-- `content.find(b'/ecv-data')`. -/
def findTokenIdx : List Nat → Option Nat
  | [] => none
  | b :: t =>
    if (matchLit ecvToken (b :: t)).isSome then some 0
    else
      match findTokenIdx t with
      | some i => some (i + 1)
      | none => none

/-- Index of the first occurrence of a byte. -/
def findByteIdx (x : Nat) : List Nat → Option Nat
  | [] => none
  | b :: t =>
    if b = x then some 0
    else
      match findByteIdx x t with
      | some i => some (i + 1)
      | none => none

/-- `content.find(b'>', pos)`. -/
def findGtFrom (bs : List Nat) (pos : Nat) : Option Nat :=
  match findByteIdx 62 (bs.drop pos) with
  | some i => some (pos + i)
  | none => none

/-- The hex text built by `save_pdf`:
`'FEFF' + json_bytes.hex().upper()` (line 297). -/
def hexData (data : J) : List Char :=
  "FEFF".data ++ pyUpper (bytesHex (utf16be (ser data)))

/-- Slices `hex_data[i:i+2]` for `i in range(0, len, 2)` (line 300). -/
def chunk2 : List Char → List (List Char)
  | a :: b :: t => [a, b] :: chunk2 t
  | [a] => [[a]]
  | [] => []

/-- `' '.join(...)`. -/
def joinSpace : List (List Char) → List Char
  | [] => []
  | [c] => c
  | c :: d :: t => c ++ ' ' :: joinSpace (d :: t)

/-- `hex_formatted`: byte pairs separated by single spaces (line 300). -/
def hexFormatted (data : J) : List Char := joinSpace (chunk2 (hexData data))

/-- `f'/ecv-data <{hex_formatted}>'.encode('ascii')` (line 309). -/
def replacementBytes (data : J) : List Nat :=
  ecvToken ++ 32 :: 60 :: ((hexFormatted data).map Char.toNat ++ [62])

/-- Failures of `save_pdf`'s replacement logic: the token is absent
entirely, or it has no `>` terminator after it (lines 327-329). -/
inductive SaveErr where
  | fieldNotFound : SaveErr
  | malformed : SaveErr

/-- The byte-level core of `PDFResumeUpdater.save_pdf` (lines 290-329):
serialize, encode UTF-16BE, hex-format, then replace the `/ecv-data`
field via the first matching pattern, falling back to a manual
token-to-terminator splice. -/
def save_pdf (data : J) (content : List Nat) : Except SaveErr (List Nat) :=
  let repl := replacementBytes data
  if (searchWith matchP1 content).isSome then
    Except.ok (reSub matchP1 repl content)
  else if (searchWith matchP2 content).isSome then
    Except.ok (reSub matchP2 repl content)
  else
    match findTokenIdx content with
    | none => Except.error SaveErr.fieldNotFound
    | some pos =>
      match findGtFrom content pos with
      | none => Except.error SaveErr.malformed
      | some e => Except.ok (content.take pos ++ repl ++ content.drop (e + 1))

/-- What went wrong inside the decode chain: the two exception classes
caught by `extract_json_data`'s inner handler (line 71). -/
inductive DecodeCause where
  | utf16 : DecodeCause
  | json : DecodeCause

/-- Failures of `extract_json_data`.  `hexError` is the `ValueError`
raised by `bytes.fromhex`, which the inner `except (UnicodeDecodeError,
json.JSONDecodeError)` clause does NOT catch, so it is distinct from the
`DecodeError` kind. -/
inductive ExtractErr where
  | fieldNotFound : ExtractErr
  | hexError : ExtractErr
  | decodeError : DecodeCause → ExtractErr

/-- The pattern loop of `extract_json_data` (lines 35-45): each pattern
searched over the whole content, first hit wins. -/
def extractSearch (content : List Nat) : Option (List Nat) :=
  match searchWith matchP1 content with
  | some (g, _) => some g
  | none =>
    match searchWith matchP2 content with
    | some (g, _) => some g
    | none =>
      match searchWith matchP3 content with
      | some (g, _) => some g
      | none => none

/-- `hex_data.replace(b' ', b'').replace(b'\n', b'').replace(b'\r', b'')`
(line 56). -/
def stripHexWs (g : List Nat) : List Nat :=
  g.filter (fun b => !(b == 32 || b == 10 || b == 13))

/-- `bytes.decode('ascii', errors='ignore')`: non-ASCII bytes dropped. -/
def asciiIgnore (bs : List Nat) : List Char :=
  (bs.filter (fun b => b < 128)).map Char.ofNat

/-- The byte-level core of `PDFResumeUpdater.extract_json_data`
(lines 26-75): locate the field, strip spacing, hex-decode, UTF-16BE
decode, JSON parse. -/
def extract_json_data (content : List Nat) : Except ExtractErr J :=
  match extractSearch content with
  | none => Except.error ExtractErr.fieldNotFound
  | some g =>
    match pyFromhex (asciiIgnore (stripHexWs g)) with
    | none => Except.error ExtractErr.hexError
    | some bytesData =>
      match utf16beDecode bytesData with
      | none => Except.error (ExtractErr.decodeError DecodeCause.utf16)
      | some jsonStr =>
        match jsonLoads jsonStr with
        | none => Except.error (ExtractErr.decodeError DecodeCause.json)
        | some v => Except.ok v

/-- Number of positions at which the token occurs. -/
def countTok : List Nat → Nat
  | [] => 0
  | b :: t =>
    (if (matchLit ecvToken (b :: t)).isSome then 1 else 0) + countTok t



/-! ### Codec lemmas: pattern structure and occurrence accounting -/

theorem matchLit_append (lit r : List Nat) : matchLit lit (lit ++ r) = some r := by
  induction lit with
  | nil => rfl
  | cons l lt ih => simp [matchLit, ih]

theorem matchLit_eq_append (lit bs r : List Nat) (h : matchLit lit bs = some r) :
    bs = lit ++ r := by
  induction lit generalizing bs with
  | nil =>
    simp [matchLit] at h
    simp [h]
  | cons l lt ih =>
    cases bs with
    | nil => simp [matchLit] at h
    | cons b bt =>
      rw [matchLit] at h
      by_cases hb : b = l
      · rw [if_pos hb] at h
        rw [hb, List.cons_append, ih bt h]
      · rw [if_neg hb] at h
        exact absurd h (by simp)

theorem matchLit_isSome_of_pref (lit bs : List Nat) (h : lit <+: bs) :
    (matchLit lit bs).isSome = true := by
  obtain ⟨r, hr⟩ := h
  rw [← hr, matchLit_append]
  rfl

theorem pref_of_matchLit_isSome (lit bs : List Nat)
    (h : (matchLit lit bs).isSome = true) : lit <+: bs := by
  cases hm : matchLit lit bs with
  | none => rw [hm] at h; simp at h
  | some r => exact ⟨r, (matchLit_eq_append lit bs r hm).symm⟩

theorem skipBWs_split (bs : List Nat) :
    ∃ w, bs = w ++ skipBWs bs ∧ ∀ b ∈ w, bWs b = true := by
  induction bs with
  | nil => exact ⟨[], rfl, by simp⟩
  | cons b t ih =>
    by_cases hb : bWs b = true
    · obtain ⟨w, hw, hws⟩ := ih
      refine ⟨b :: w, ?_, ?_⟩
      · rw [skipBWs, if_pos hb, List.cons_append, ← hw]
      · intro x hx
        rcases List.mem_cons.mp hx with hx | hx
        · rw [hx]; exact hb
        · exact hws x hx
    · refine ⟨[], ?_, by simp⟩
      rw [skipBWs, if_neg hb]
      simp

theorem takeNonGt_split (bs : List Nat) :
    bs = (takeNonGt bs).1 ++ (takeNonGt bs).2 ∧ (∀ b ∈ (takeNonGt bs).1, b ≠ 62) ∧
      ((takeNonGt bs).2 = [] ∨ ∃ r, (takeNonGt bs).2 = 62 :: r) := by
  induction bs with
  | nil => exact ⟨rfl, by simp [takeNonGt], Or.inl rfl⟩
  | cons b t ih =>
    by_cases hb : b = 62
    · subst hb
      rw [takeNonGt]
      simp only [if_pos rfl]
      exact ⟨rfl, by simp, Or.inr ⟨t, rfl⟩⟩
    · rw [takeNonGt]
      simp only [if_neg hb]
      obtain ⟨heq, hno, hterm⟩ := ih
      cases htk : takeNonGt t with
      | mk g rest =>
        rw [htk] at heq hno hterm
        simp only []
        refine ⟨?_, ?_, ?_⟩
        · rw [List.cons_append, ← heq]
        · intro x hx
          rcases List.mem_cons.mp hx with hx | hx
          · rw [hx]; exact hb
          · exact hno x hx
        · exact hterm

theorem takeNonGt_append (g rest : List Nat) (hg : ∀ b ∈ g, b ≠ 62) :
    takeNonGt (g ++ 62 :: rest) = (g, 62 :: rest) := by
  induction g with
  | nil => simp [takeNonGt]
  | cons b t ih =>
    have hb : b ≠ 62 := hg b (List.mem_cons_self _ _)
    have ht : ∀ x ∈ t, x ≠ 62 := fun x hx => hg x (List.mem_cons_of_mem _ hx)
    rw [List.cons_append, takeNonGt, if_neg hb, ih ht]

theorem matchP1_structure (bs g rest : List Nat) (h : matchP1 bs = some (g, rest)) :
    ∃ w, (∀ b ∈ w, bWs b = true) ∧ (∀ b ∈ g, b ≠ 62) ∧ g ≠ [] ∧
      bs = ecvToken ++ w ++ 60 :: 70 :: 69 :: 70 :: 70 :: (g ++ 62 :: rest) := by
  rw [matchP1] at h
  cases hm : matchLit ecvToken bs with
  | none => rw [hm] at h; exact absurd h (by simp)
  | some r1 =>
    rw [hm] at h
    simp only [] at h
    have hbs := matchLit_eq_append _ _ _ hm
    cases hm2 : matchLit [60, 70, 69, 70, 70] (skipBWs r1) with
    | none => rw [hm2] at h; exact absurd h (by simp)
    | some r3 =>
      rw [hm2] at h
      simp only [] at h
      have hr1 := matchLit_eq_append _ _ _ hm2
      obtain ⟨w, hw, hws⟩ := skipBWs_split r1
      obtain ⟨hsplit, hnogt, hterm⟩ := takeNonGt_split r3
      cases htk : takeNonGt r3 with
      | mk g2 rest2 =>
        rw [htk] at h hsplit hnogt hterm
        simp only [] at h hsplit hnogt hterm
        rcases hterm with hterm | ⟨r4, hterm⟩
        · rw [hterm] at h
          exact absurd h (by simp)
        · rw [hterm] at h hsplit
          have h2 : (if g2.isEmpty = true then none else some (g2, r4)) =
              some (g, rest) := by simpa using h
          by_cases hge : g2.isEmpty
          · rw [if_pos hge] at h2
            exact absurd h2 (by simp)
          · rw [if_neg hge] at h2
            have hgr : g2 = g ∧ r4 = rest := by
              have h3 := h2
              simp at h3
              exact h3
            obtain ⟨hg2, hr4⟩ := hgr
            subst hg2
            subst hr4
            refine ⟨w, hws, hnogt, by simpa using hge, ?_⟩
            rw [hbs, hw, hr1, hsplit]
            simp

theorem matchP2_structure (bs g rest : List Nat) (h : matchP2 bs = some (g, rest)) :
    ∃ w1 w2, (∀ b ∈ w1, bWs b = true) ∧ (∀ b ∈ w2, bWs b = true) ∧
      (∀ b ∈ g, b ≠ 62) ∧ g ≠ [] ∧
      bs = ecvToken ++ w1 ++ 60 :: 70 :: 69 :: (w2 ++ 70 :: 70 :: (g ++ 62 :: rest)) := by
  rw [matchP2] at h
  cases hm : matchLit ecvToken bs with
  | none => rw [hm] at h; exact absurd h (by simp)
  | some r1 =>
    rw [hm] at h
    simp only [] at h
    have hbs := matchLit_eq_append _ _ _ hm
    cases hm2 : matchLit [60, 70, 69] (skipBWs r1) with
    | none => rw [hm2] at h; exact absurd h (by simp)
    | some r3 =>
      rw [hm2] at h
      simp only [] at h
      have hr1 := matchLit_eq_append _ _ _ hm2
      cases hm3 : matchLit [70, 70] (skipBWs r3) with
      | none => rw [hm3] at h; exact absurd h (by simp)
      | some r4 =>
        rw [hm3] at h
        simp only [] at h
        have hr3 := matchLit_eq_append _ _ _ hm3
        obtain ⟨w1, hw1, hws1⟩ := skipBWs_split r1
        obtain ⟨w2, hw2, hws2⟩ := skipBWs_split r3
        obtain ⟨hsplit, hnogt, hterm⟩ := takeNonGt_split r4
        cases htk : takeNonGt r4 with
        | mk g2 rest2 =>
          rw [htk] at h hsplit hnogt hterm
          simp only [] at h hsplit hnogt hterm
          rcases hterm with hterm | ⟨r5, hterm⟩
          · rw [hterm] at h
            exact absurd h (by simp)
          · rw [hterm] at h hsplit
            have h2 : (if g2.isEmpty = true then none else some (g2, r5)) =
                some (g, rest) := by simpa using h
            by_cases hge : g2.isEmpty
            · rw [if_pos hge] at h2
              exact absurd h2 (by simp)
            · rw [if_neg hge] at h2
              have hgr : g2 = g ∧ r5 = rest := by
                have h3 := h2
                simp at h3
                exact h3
              obtain ⟨hg2, hr5⟩ := hgr
              subst hg2
              subst hr5
              refine ⟨w1, w2, hws1, hws2, hnogt, by simpa using hge, ?_⟩
              rw [hbs, hw1, hr1, hw2, hr3, hsplit]
              simp

theorem matchP1_pref (bs g rest : List Nat) (h : matchP1 bs = some (g, rest)) :
    ecvToken <+: bs := by
  obtain ⟨w, _, _, _, hbs⟩ := matchP1_structure bs g rest h
  rw [hbs, List.append_assoc]
  exact List.prefix_append _ _

theorem matchP2_pref (bs g rest : List Nat) (h : matchP2 bs = some (g, rest)) :
    ecvToken <+: bs := by
  obtain ⟨w1, w2, _, _, _, _, hbs⟩ := matchP2_structure bs g rest h
  rw [hbs, List.append_assoc]
  exact List.prefix_append _ _

theorem matchP3_pref (bs g rest : List Nat) (h : matchP3 bs = some (g, rest)) :
    ecvToken <+: bs := by
  rw [matchP3] at h
  cases hm : matchLit ecvToken bs with
  | none => rw [hm] at h; exact absurd h (by simp)
  | some r1 =>
    have hbs := matchLit_eq_append _ _ _ hm
    rw [hbs]
    exact ⟨_, rfl⟩



/-- The token occurs at position `i`. -/
def tokAt (bs : List Nat) (i : Nat) : Prop := ecvToken <+: bs.drop i

theorem tokAt_cons_succ (b : Nat) (t : List Nat) (i : Nat) :
    tokAt (b :: t) (i + 1) ↔ tokAt t i := by
  rw [tokAt, tokAt, List.drop_succ_cons]

theorem countTok_ge_one (bs : List Nat) (i : Nat) (h : tokAt bs i) :
    1 ≤ countTok bs := by
  induction bs generalizing i with
  | nil =>
    rw [tokAt, List.drop_nil] at h
    have := h.length_le
    simp [ecvToken] at this
  | cons b t ih =>
    cases i with
    | zero =>
      rw [tokAt, List.drop_zero] at h
      rw [countTok, if_pos (matchLit_isSome_of_pref _ _ h)]
      omega
    | succ j =>
      have ht := ih j ((tokAt_cons_succ b t j).mp h)
      rw [countTok]
      split <;> omega

theorem countTok_ge_two (bs : List Nat) (i j : Nat) (hij : i < j)
    (hi : tokAt bs i) (hj : tokAt bs j) : 2 ≤ countTok bs := by
  induction bs generalizing i j with
  | nil =>
    rw [tokAt, List.drop_nil] at hi
    have := hi.length_le
    simp [ecvToken] at this
  | cons b t ih =>
    cases i with
    | zero =>
      rw [tokAt, List.drop_zero] at hi
      cases j with
      | zero => omega
      | succ j2 =>
        have hj2 := (tokAt_cons_succ b t j2).mp hj
        have h1 := countTok_ge_one t j2 hj2
        rw [countTok, if_pos (matchLit_isSome_of_pref _ _ hi)]
        omega
    | succ i2 =>
      cases j with
      | zero => omega
      | succ j2 =>
        have h2 := ih i2 j2 (by omega) ((tokAt_cons_succ b t i2).mp hi)
          ((tokAt_cons_succ b t j2).mp hj)
        rw [countTok]
        split <;> omega

theorem tokAt_boundary (pre : List Nat) (tail : List Nat) :
    tokAt (pre ++ ecvToken ++ tail) pre.length := by
  rw [tokAt, List.append_assoc, List.drop_append_of_le_length (by omega),
    List.drop_length, List.nil_append]
  exact List.prefix_append _ _

theorem tok_unique (pre tail : List Nat)
    (huniq : countTok (pre ++ ecvToken ++ tail) = 1) :
    ∀ i, tokAt (pre ++ ecvToken ++ tail) i → i = pre.length := by
  intro i hi
  by_contra hne
  rcases Nat.lt_or_ge i pre.length with hlt | hge
  · have := countTok_ge_two _ i pre.length hlt hi
      (tokAt_boundary pre tail)
    omega
  · have hgt : pre.length < i := by omega
    have := countTok_ge_two _ pre.length i hgt (tokAt_boundary pre tail) hi
    omega

theorem searchWith_skip (m : List Nat → Option (List Nat × List Nat))
    (hm : ∀ bs p, m bs = some p → ecvToken <+: bs) :
    ∀ (pre rest : List Nat),
    (∀ i, i < pre.length → ¬ tokAt (pre ++ rest) i) →
    searchWith m (pre ++ rest) = searchWith m rest := by
  intro pre
  induction pre with
  | nil => intro rest _; rfl
  | cons b t ih =>
    intro rest hpre
    rw [List.cons_append, searchWith]
    cases hmz : m (b :: (t ++ rest)) with
    | some p =>
      exfalso
      refine hpre 0 (by simp) ?_
      rw [tokAt, List.drop_zero, List.cons_append]
      exact hm _ p hmz
    | none =>
      exact ih rest (fun i hi hti => hpre (i + 1) (by simp; omega)
        ((tokAt_cons_succ b (t ++ rest) i).mpr hti))

theorem searchWith_none_of (m : List Nat → Option (List Nat × List Nat))
    (hm : ∀ bs p, m bs = some p → ecvToken <+: bs) :
    ∀ bs : List Nat, (∀ i, ¬ tokAt bs i) → searchWith m bs = none := by
  intro bs
  induction bs with
  | nil =>
    intro _
    rw [searchWith]
    cases hmz : m [] with
    | some p =>
      have := hm [] p hmz
      rw [List.prefix_nil] at this
      exact absurd this (by simp [ecvToken])
    | none => rfl
  | cons b t ih =>
    intro h
    rw [searchWith]
    cases hmz : m (b :: t) with
    | some p =>
      exfalso
      exact h 0 (by rw [tokAt, List.drop_zero]; exact hm _ p hmz)
    | none =>
      exact ih (fun i hti => h (i + 1) ((tokAt_cons_succ b t i).mpr hti))

theorem searchWith_head (m : List Nat → Option (List Nat × List Nat))
    (bs : List Nat) (p : List Nat × List Nat) (h : m bs = some p) :
    searchWith m bs = some p := by
  cases bs <;> rw [searchWith] <;> rw [h]

theorem reSubGo_fuel (m : List Nat → Option (List Nat × List Nat))
    (repl : List Nat)
    (hlen : ∀ bs g rest, m bs = some (g, rest) → rest.length < bs.length) :
    ∀ f1 f2 bs, bs.length < f1 → bs.length < f2 →
      reSubGo m repl f1 bs = reSubGo m repl f2 bs := by
  intro f1
  induction f1 with
  | zero => intro f2 bs h1 _; omega
  | succ g1 ih =>
    intro f2 bs h1 h2
    cases f2 with
    | zero => omega
    | succ g2 =>
      cases bs with
      | nil => rfl
      | cons b t =>
        rw [reSubGo, reSubGo]
        cases hmz : m (b :: t) with
        | some p =>
          obtain ⟨g, rest⟩ := p
          have hr := hlen _ _ _ hmz
          simp only [List.length_cons] at h1 h2 hr
          simp only []
          rw [ih g2 rest (by omega) (by omega)]
        | none =>
          simp only [List.length_cons] at h1 h2
          simp only []
          rw [ih g2 t (by omega) (by omega)]

theorem reSub_skip (m : List Nat → Option (List Nat × List Nat)) (repl : List Nat)
    (hm : ∀ bs p, m bs = some p → ecvToken <+: bs) :
    ∀ (pre rest : List Nat),
    (∀ i, i < pre.length → ¬ tokAt (pre ++ rest) i) →
    reSub m repl (pre ++ rest) = pre ++ reSub m repl rest := by
  intro pre
  induction pre with
  | nil => intro rest _; rfl
  | cons b t ih =>
    intro rest hpre
    rw [List.cons_append, reSub]
    simp only [List.length_cons]
    rw [reSubGo]
    cases hmz : m (b :: (t ++ rest)) with
    | some p =>
      exfalso
      refine hpre 0 (by simp) ?_
      rw [tokAt, List.drop_zero, List.cons_append]
      exact hm _ p hmz
    | none =>
      simp only []
      have hstep : reSubGo m repl ((t ++ rest).length + 1) (t ++ rest) =
          reSub m repl (t ++ rest) := rfl
      rw [hstep, ih rest (fun i hi hti => hpre (i + 1) (by simp; omega)
        ((tokAt_cons_succ b (t ++ rest) i).mpr hti))]
      rfl

theorem reSub_nomatch (m : List Nat → Option (List Nat × List Nat)) (repl : List Nat)
    (hm : ∀ bs p, m bs = some p → ecvToken <+: bs) :
    ∀ bs : List Nat, (∀ i, ¬ tokAt bs i) → reSub m repl bs = bs := by
  intro bs
  induction bs with
  | nil =>
    intro _
    rw [reSub, reSubGo]
    cases hmz : m [] with
    | some p =>
      have := hm [] p hmz
      rw [List.prefix_nil] at this
      exact absurd this (by simp [ecvToken])
    | none => rfl
  | cons b t ih =>
    intro h
    rw [reSub]
    simp only [List.length_cons]
    rw [reSubGo]
    cases hmz : m (b :: t) with
    | some p =>
      exfalso
      exact h 0 (by rw [tokAt, List.drop_zero]; exact hm _ p hmz)
    | none =>
      simp only []
      have hstep : reSubGo m repl (t.length + 1) t = reSub m repl t := rfl
      rw [hstep, ih (fun i hti => h (i + 1) ((tokAt_cons_succ b t i).mpr hti))]

theorem reSub_head (m : List Nat → Option (List Nat × List Nat)) (repl : List Nat)
    (hm : ∀ bs p, m bs = some p → ecvToken <+: bs)
    (hlen : ∀ bs g rest, m bs = some (g, rest) → rest.length < bs.length)
    (bs g rest : List Nat) (h : m bs = some (g, rest))
    (hrest : ∀ i, ¬ tokAt rest i) :
    reSub m repl bs = repl ++ rest := by
  cases bs with
  | nil =>
    have := hm [] _ h
    rw [List.prefix_nil] at this
    exact absurd this (by simp [ecvToken])
  | cons b t =>
    rw [reSub]
    simp only [List.length_cons]
    rw [reSubGo, h]
    simp only []
    have hr := hlen _ _ _ h
    simp only [List.length_cons] at hr
    rw [reSubGo_fuel m repl hlen (t.length + 1) (rest.length + 1) rest
      (by omega) (by omega)]
    have hstep : reSubGo m repl (rest.length + 1) rest = reSub m repl rest := rfl
    rw [hstep, reSub_nomatch m repl hm rest hrest]



/-! ### Shape of the generated field text -/

theorem utf16be_lt256 (s : List Char) : ∀ b ∈ utf16be s, b < 256 := by
  intro b hb
  rw [utf16be] at hb
  simp only [List.mem_flatten, List.mem_map] at hb
  obtain ⟨l, ⟨c, _, hl⟩, hbl⟩ := hb
  have hv := char_valid_nat c
  rw [← hl, utf16beChar] at hbl
  split at hbl
  · simp at hbl
    rcases hbl with h | h <;> omega
  · simp at hbl
    rcases hbl with h | h | h | h <;> omega

theorem utf16be_ne_nil (s : List Char) (h : s ≠ []) : utf16be s ≠ [] := by
  cases s with
  | nil => exact absurd rfl h
  | cons c t =>
    rw [utf16be]
    simp only [List.map_cons, List.flatten_cons]
    rw [utf16beChar]
    split <;> simp

theorem upperHex_mem (bs : List Nat) (hb : ∀ b ∈ bs, b < 256) :
    ∀ c ∈ pyUpper (bytesHex bs),
      (48 ≤ c.toNat ∧ c.toNat ≤ 57) ∨ (65 ≤ c.toNat ∧ c.toNat ≤ 70) := by
  intro c hc
  rw [pyUpper] at hc
  simp only [List.mem_map] at hc
  obtain ⟨c0, hc0, hcu⟩ := hc
  rw [bytesHex] at hc0
  simp only [List.mem_flatten, List.mem_map] at hc0
  obtain ⟨l, ⟨b, hbmem, hl⟩, hc0l⟩ := hc0
  have hb256 : b < 256 := hb b hbmem
  rw [← hl, hexPair] at hc0l
  have hdig : ∃ n, n < 16 ∧ c0 = hexLowerDigit n := by
    simp at hc0l
    rcases hc0l with h | h
    · exact ⟨b / 16, by omega, by rw [h]⟩
    · exact ⟨b % 16, by omega, by rw [h]⟩
  obtain ⟨n, hn, hc0d⟩ := hdig
  rw [← hcu, hc0d]
  by_cases h10 : n < 10
  · left
    rw [hexLowerDigit, if_pos h10, pyUpperChar,
      if_neg (by rw [digitChar_toNat n h10]; simp; omega), digitChar_toNat n h10]
    omega
  · right
    have hch : (Char.ofNat (87 + n)).toNat = 87 + n := toNat_ofNat_small _ (by omega)
    rw [hexLowerDigit, if_neg h10, pyUpperChar, if_pos (by rw [hch]; simp; omega)]
    rw [toNat_ofNat_small _ (by omega)]
    omega

theorem pyUpper_bytesHex_ne_nil (bs : List Nat) (h : bs ≠ []) :
    pyUpper (bytesHex bs) ≠ [] := by
  cases bs with
  | nil => exact absurd rfl h
  | cons b t => simp [pyUpper, bytesHex, hexPair]

theorem chunk2_ne_nil (s : List Char) (h : s ≠ []) : chunk2 s ≠ [] := by
  cases s with
  | nil => exact absurd rfl h
  | cons a t =>
    cases t with
    | nil => simp [chunk2]
    | cons b t2 => simp [chunk2]

theorem chunk2_nil_of (s : List Char) (h : chunk2 s = []) : s = [] := by
  by_contra hne
  exact chunk2_ne_nil s hne h

theorem joinSpace_cons_cons (c d : List Char) (t : List (List Char)) :
    joinSpace (c :: d :: t) = c ++ ' ' :: joinSpace (d :: t) := rfl

theorem joinSpace_chunk2_mem : ∀ (s : List Char), ∀ c ∈ joinSpace (chunk2 s),
    c ∈ s ∨ c = ' '
  | [] => by intro c hc; simp [chunk2, joinSpace] at hc
  | [a] => by
    intro c hc
    simp [chunk2, joinSpace] at hc
    simp [hc]
  | a :: b :: t => by
    intro c hc
    rw [chunk2] at hc
    cases hct : chunk2 t with
    | nil =>
      rw [hct] at hc
      have ht := chunk2_nil_of t hct
      subst ht
      simp [joinSpace] at hc
      rcases hc with h | h <;> simp [h]
    | cons e es =>
      rw [hct, joinSpace_cons_cons] at hc
      simp only [List.mem_append, List.mem_cons] at hc
      rcases hc with (h | h | h) | h | h
      · simp [h]
      · simp [h]
      · simp at h
      · exact Or.inr h
      · have := joinSpace_chunk2_mem t c (by rw [hct]; exact h)
        rcases this with h2 | h2
        · exact Or.inl (by simp [h2])
        · exact Or.inr h2

/-- Keep-predicate of `stripHexWs` at character level. -/
def hexKeep (c : Char) : Bool := !(c.toNat == 32 || c.toNat == 10 || c.toNat == 13)

theorem despace_joinSpace_chunk2 : ∀ (s : List Char),
    (∀ c ∈ s, hexKeep c = true) → (joinSpace (chunk2 s)).filter hexKeep = s
  | [] => by intro _; simp [chunk2, joinSpace]
  | [a] => by
    intro h
    have ha := h a (by simp)
    simp [chunk2, joinSpace, List.filter, ha]
  | a :: b :: t => by
    intro h
    have ha := h a (by simp)
    have hb := h b (by simp)
    rw [chunk2]
    cases hct : chunk2 t with
    | nil =>
      have ht := chunk2_nil_of t hct
      subst ht
      simp [joinSpace, List.filter, ha, hb]
    | cons e es =>
      rw [joinSpace_cons_cons]
      have hsp : hexKeep ' ' = false := by decide
      have ht := despace_joinSpace_chunk2 t
        (fun c hc => h c (by simp [hc]))
      rw [hct] at ht
      simp only [List.cons_append, List.nil_append, List.filter, ha, hb, hsp]
      rw [ht]


/-! ### Normal form of the replacement field -/

theorem ecvToken_eq : ecvToken = [47, 101, 99, 118, 45, 100, 97, 116, 97] := rfl

theorem ser_ne_nil (v : J) : ser v ≠ [] := by
  obtain ⟨c, cs, h, _⟩ := ser_shape v
  rw [h]
  simp

theorem upD_ne_nil (v : J) : pyUpper (bytesHex (utf16be (ser v))) ≠ [] :=
  pyUpper_bytesHex_ne_nil _ (utf16be_ne_nil _ (ser_ne_nil v))

theorem hexFormatted_shape (v : J) :
    hexFormatted v = 'F' :: 'E' :: ' ' :: 'F' :: 'F' :: ' ' ::
      joinSpace (chunk2 (pyUpper (bytesHex (utf16be (ser v))))) := by
  rw [hexFormatted, hexData]
  cases hch : chunk2 (pyUpper (bytesHex (utf16be (ser v)))) with
  | nil => exact absurd (chunk2_nil_of _ hch) (upD_ne_nil v)
  | cons e es =>
    have h4 : ("FEFF".data : List Char) = ['F', 'E', 'F', 'F'] := rfl
    rw [h4, List.cons_append, List.cons_append, List.cons_append, List.cons_append,
      List.nil_append, chunk2, chunk2, hch, joinSpace_cons_cons, joinSpace_cons_cons]
    rfl

theorem midChars (v : J) :
    ∀ c ∈ joinSpace (chunk2 (pyUpper (bytesHex (utf16be (ser v))))),
      (48 ≤ c.toNat ∧ c.toNat ≤ 57) ∨ (65 ≤ c.toNat ∧ c.toNat ≤ 70) ∨ c = ' ' := by
  intro c hc
  rcases joinSpace_chunk2_mem _ c hc with h | h
  · rcases upperHex_mem _ (utf16be_lt256 (ser v)) c h with h2 | h2
    · exact Or.inl h2
    · exact Or.inr (Or.inl h2)
  · exact Or.inr (Or.inr h)

theorem midBytes (v : J) :
    ∀ b ∈ (joinSpace (chunk2 (pyUpper (bytesHex (utf16be (ser v)))))).map Char.toNat,
      (48 ≤ b ∧ b ≤ 57) ∨ (65 ≤ b ∧ b ≤ 70) ∨ b = 32 := by
  intro b hb
  simp only [List.mem_map] at hb
  obtain ⟨c, hc, hcb⟩ := hb
  rcases midChars v c hc with h | h | h
  · exact Or.inl (hcb ▸ h)
  · exact Or.inr (Or.inl (hcb ▸ h))
  · right
    right
    rw [← hcb, h]
    rfl

theorem replacementBytes_eq (v : J) (post : List Nat) :
    replacementBytes v ++ post = ecvToken ++
      (32 :: 60 :: 70 :: 69 :: 32 :: 70 :: 70 :: 32 ::
        ((joinSpace (chunk2 (pyUpper (bytesHex (utf16be (ser v)))))).map Char.toNat
          ++ 62 :: post)) := by
  rw [replacementBytes, hexFormatted_shape, List.append_assoc]
  simp only [List.map_cons, List.cons_append, List.append_assoc]
  rfl

theorem tokAt_head47 (bs : List Nat) (i : Nat) (h : tokAt bs i) :
    ∃ t, bs.drop i = 47 :: t := by
  obtain ⟨r, hr⟩ := h
  exact ⟨ecvToken.drop 1 ++ r, by rw [← hr, ecvToken_eq]; rfl⟩

theorem no_tok_append : ∀ (xs post : List Nat), (∀ b ∈ xs, b ≠ 47) →
    (∀ i, ¬ tokAt post i) → ∀ i, ¬ tokAt (xs ++ post) i
  | [], post => by
    intro _ hpost i hi
    exact hpost i (by simpa using hi)
  | x :: t, post => by
    intro hx hpost i hi
    cases i with
    | zero =>
      obtain ⟨r, hr⟩ := tokAt_head47 _ _ hi
      rw [List.drop_zero, List.cons_append] at hr
      have hx47 : x = 47 := by
        have h2 := hr
        simp at h2
        exact h2.1
      exact hx x (by simp) hx47
    | succ j =>
      exact no_tok_append t post (fun b hb => hx b (by simp [hb])) hpost j
        ((tokAt_cons_succ x (t ++ post) j).mp hi)

theorem tokAt_shift (A rest : List Nat) (i : Nat) (h : tokAt rest i) :
    tokAt (A ++ rest) (A.length + i) := by
  rw [tokAt, ← List.drop_drop, List.drop_left]
  exact h

theorem tokAt_drop (bs : List Nat) (n j : Nat) :
    tokAt (bs.drop n) j ↔ tokAt bs (n + j) := by
  rw [tokAt, tokAt, List.drop_drop]

theorem tokAt_of_take (bs cs : List Nat) (i : Nat)
    (h : bs.take (i + 9) = cs.take (i + 9)) (ht : tokAt cs i) : tokAt bs i := by
  have hcs : (cs.drop i).take 9 = ecvToken := by
    obtain ⟨r, hr⟩ := ht
    rw [← hr, List.take_append_of_le_length (by rw [ecvToken_eq]; simp),
      List.take_of_length_le (by rw [ecvToken_eq]; simp)]
  have hbs : (bs.drop i).take 9 = ecvToken := by
    rw [List.take_drop, h, ← List.take_drop, hcs]
  rw [tokAt, ← hbs]
  exact List.take_prefix _ _

theorem bWs_ne_62 (b : Nat) (h : bWs b = true) : b ≠ 62 := by
  rw [bWs] at h
  simp at h
  rcases h with ((((h | h) | h) | h) | h) | h <;> omega

theorem append62_inj : ∀ (xs ys r1 r2 : List Nat), (∀ b ∈ xs, b ≠ 62) →
    (∀ b ∈ ys, b ≠ 62) → xs ++ 62 :: r1 = ys ++ 62 :: r2 → xs = ys ∧ r1 = r2
  | [], [], r1, r2 => by
    intro _ _ h
    simpa using h
  | [], y :: yt, r1, r2 => by
    intro _ hy h
    simp only [List.nil_append, List.cons_append, List.cons.injEq] at h
    exact absurd h.1.symm (hy y (by simp))
  | x :: xt, [], r1, r2 => by
    intro hx _ h
    simp only [List.nil_append, List.cons_append, List.cons.injEq] at h
    exact absurd h.1 (hx x (by simp))
  | x :: xt, y :: yt, r1, r2 => by
    intro hx hy h
    simp only [List.cons_append, List.cons.injEq] at h
    obtain ⟨hxy, h2⟩ := h
    have hrec := append62_inj xt yt r1 r2 (fun b hb => hx b (by simp [hb]))
      (fun b hb => hy b (by simp [hb])) h2
    exact ⟨by rw [hxy, hrec.1], hrec.2⟩

theorem findTokenIdx_spec : ∀ (pre tail : List Nat),
    (∀ i, i < pre.length → ¬ tokAt (pre ++ (ecvToken ++ tail)) i) →
    findTokenIdx (pre ++ (ecvToken ++ tail)) = some pre.length
  | [], tail => by
    intro _
    rw [List.nil_append]
    cases h47 : ecvToken ++ tail with
    | nil => exact absurd h47 (by rw [ecvToken_eq]; simp)
    | cons b t =>
      rw [findTokenIdx, if_pos]
      · rfl
      · rw [← h47, matchLit_append]
        rfl
  | x :: xt, tail => by
    intro hpre
    rw [List.cons_append, findTokenIdx]
    have h0 : ¬ tokAt ((x :: xt) ++ (ecvToken ++ tail)) 0 := hpre 0 (by simp)
    have hm : ¬ ((matchLit ecvToken (x :: (xt ++ (ecvToken ++ tail)))).isSome = true) := by
      intro hs
      refine h0 ?_
      rw [tokAt, List.drop_zero, List.cons_append]
      exact pref_of_matchLit_isSome _ _ hs
    rw [if_neg hm, findTokenIdx_spec xt tail (fun i hi hti => hpre (i + 1)
      (by simp; omega) ((tokAt_cons_succ _ _ _).mpr hti))]
    rfl

theorem findByteIdx_none : ∀ (x : Nat) (bs : List Nat), x ∉ bs →
    findByteIdx x bs = none
  | _, [] => fun _ => rfl
  | x, b :: t => by
    intro h
    have hbx : ¬ (b = x) := by
      intro he
      rw [he] at h
      exact h (List.mem_cons_self x t)
    rw [findByteIdx, if_neg hbx, findByteIdx_none x t (fun ht => h (by simp [ht]))]

theorem findByteIdx_spec : ∀ (x : Nat) (xs rest : List Nat), x ∉ xs →
    findByteIdx x (xs ++ x :: rest) = some xs.length
  | x, [], rest => by
    intro _
    rw [List.nil_append, findByteIdx, if_pos rfl]
    rfl
  | x, b :: t, rest => by
    intro h
    have hbx : ¬ (b = x) := by
      intro he
      rw [he] at h
      exact h (List.mem_cons_self x t)
    rw [List.cons_append, findByteIdx, if_neg hbx,
      findByteIdx_spec x t rest (fun ht => h (by simp [ht]))]
    rfl

theorem searchWith_some_ex (m : List Nat → Option (List Nat × List Nat)) :
    ∀ (bs : List Nat) (p : List Nat × List Nat), searchWith m bs = some p →
      ∃ n, m (bs.drop n) = some p
  | [], p => by
    intro h
    rw [searchWith] at h
    cases hmz : m [] with
    | some q =>
      rw [hmz] at h
      simp only [] at h
      exact ⟨0, by rw [List.drop_nil, hmz, h]⟩
    | none =>
      rw [hmz] at h
      exact absurd h (by simp)
  | b :: t, p => by
    intro h
    rw [searchWith] at h
    cases hmz : m (b :: t) with
    | some q =>
      rw [hmz] at h
      simp only [] at h
      exact ⟨0, by rw [List.drop_zero, hmz, h]⟩
    | none =>
      rw [hmz] at h
      simp only [] at h
      obtain ⟨n, hn⟩ := searchWith_some_ex m t p h
      exact ⟨n + 1, by rw [List.drop_succ_cons]; exact hn⟩

theorem matchP1_has62 (bs g rest : List Nat) (h : matchP1 bs = some (g, rest)) :
    62 ∈ bs := by
  obtain ⟨w, _, _, _, hbs⟩ := matchP1_structure bs g rest h
  rw [hbs]
  simp

theorem matchP2_has62 (bs g rest : List Nat) (h : matchP2 bs = some (g, rest)) :
    62 ∈ bs := by
  obtain ⟨w1, w2, _, _, _, _, hbs⟩ := matchP2_structure bs g rest h
  rw [hbs]
  simp

theorem matchP1_len (bs g rest : List Nat) (h : matchP1 bs = some (g, rest)) :
    rest.length < bs.length := by
  obtain ⟨w, _, _, _, hbs⟩ := matchP1_structure bs g rest h
  rw [hbs, ecvToken_eq]
  simp
  omega

theorem matchP2_len (bs g rest : List Nat) (h : matchP2 bs = some (g, rest)) :
    rest.length < bs.length := by
  obtain ⟨w1, w2, _, _, _, _, hbs⟩ := matchP2_structure bs g rest h
  rw [hbs, ecvToken_eq]
  simp
  omega


/-! ### The two replacement-side patterns evaluated at the generated field -/

theorem matchP1_at_repl (v : J) (post : List Nat) :
    matchP1 (replacementBytes v ++ post) = none := by
  rw [replacementBytes_eq, matchP1, matchLit_append]
  simp only []
  rw [skipBWs, if_pos (by decide), skipBWs, if_neg (by decide)]
  rw [matchLit, if_pos rfl, matchLit, if_pos rfl, matchLit, if_pos rfl,
    matchLit, if_neg (by decide)]

theorem matchP2_at_repl (v : J) (post : List Nat) :
    matchP2 (replacementBytes v ++ post) =
      some (32 :: (joinSpace (chunk2 (pyUpper (bytesHex
        (utf16be (ser v)))))).map Char.toNat, post) := by
  rw [replacementBytes_eq, matchP2, matchLit_append]
  simp only []
  rw [skipBWs, if_pos (by decide), skipBWs, if_neg (by decide)]
  rw [matchLit, if_pos rfl, matchLit, if_pos rfl, matchLit, if_pos rfl, matchLit]
  simp only []
  rw [skipBWs, if_pos (by decide), skipBWs, if_neg (by decide)]
  rw [matchLit, if_pos rfl, matchLit, if_pos rfl, matchLit]
  simp only []
  have h62 : ∀ b ∈ 32 :: (joinSpace (chunk2 (pyUpper (bytesHex
      (utf16be (ser v)))))).map Char.toNat, b ≠ 62 := by
    intro b hb
    rcases List.mem_cons.mp hb with h | h
    · omega
    · rcases midBytes v b h with h2 | h2 | h2 <;> omega
  rw [show (32 :: ((joinSpace (chunk2 (pyUpper (bytesHex
        (utf16be (ser v)))))).map Char.toNat ++ 62 :: post)) =
      (32 :: (joinSpace (chunk2 (pyUpper (bytesHex
        (utf16be (ser v)))))).map Char.toNat) ++ 62 :: post from rfl,
    takeNonGt_append _ _ h62]
  simp

theorem repl_tail_no_tok (v : J) (post : List Nat) (hpost : ∀ i, ¬ tokAt post i) :
    ∀ j, ¬ tokAt ((replacementBytes v ++ post).drop 1) j := by
  have hx : ∀ b ∈ [101, 99, 118, 45, 100, 97, 116, 97] ++
      (32 :: 60 :: 70 :: 69 :: 32 :: 70 :: 70 :: 32 ::
        ((joinSpace (chunk2 (pyUpper (bytesHex (utf16be (ser v)))))).map Char.toNat
          ++ [62])), b ≠ 47 := by
    intro b hb
    rcases List.mem_append.mp hb with h | h
    · simp only [List.mem_cons, List.not_mem_nil, or_false] at h
      rcases h with h | h | h | h | h | h | h | h <;> omega
    · simp only [List.mem_cons] at h
      rcases h with h | h | h | h | h | h | h | h | h
      · omega
      · omega
      · omega
      · omega
      · omega
      · omega
      · omega
      · omega
      · rcases List.mem_append.mp h with h2 | h2
        · rcases midBytes v b h2 with h3 | h3 | h3 <;> omega
        · simp only [List.mem_cons, List.not_mem_nil, or_false] at h2
          omega
  have hdrop : (replacementBytes v ++ post).drop 1 =
      ([101, 99, 118, 45, 100, 97, 116, 97] ++
        (32 :: 60 :: 70 :: 69 :: 32 :: 70 :: 70 :: 32 ::
          ((joinSpace (chunk2 (pyUpper (bytesHex (utf16be (ser v)))))).map Char.toNat
            ++ [62]))) ++ post := by
    rw [replacementBytes_eq, ecvToken_eq]
    simp
  rw [hdrop]
  exact no_tok_append _ post hx hpost

theorem tok_in_repl (v : J) (pre post : List Nat)
    (hpre : ∀ i, i < pre.length → ¬ tokAt (pre ++ (replacementBytes v ++ post)) i)
    (hpost : ∀ i, ¬ tokAt post i) :
    ∀ i, tokAt (pre ++ (replacementBytes v ++ post)) i → i = pre.length := by
  intro i hi
  rcases Nat.lt_trichotomy i pre.length with hlt | heq | hgt
  · exact absurd hi (hpre i hlt)
  · exact heq
  · exfalso
    have hj : tokAt ((pre ++ (replacementBytes v ++ post)).drop (pre.length + 1))
        (i - pre.length - 1) := by
      rw [tokAt_drop]
      have harith : pre.length + 1 + (i - pre.length - 1) = i := by omega
      rw [harith]
      exact hi
    rw [show pre.length + 1 = pre.length + 1 from rfl, ← List.drop_drop,
      List.drop_left] at hj
    exact repl_tail_no_tok v post hpost _ hj

/-! ### Search and substitution at a uniquely placed token -/

theorem search_at_unique (m : List Nat → Option (List Nat × List Nat))
    (hm : ∀ bs p, m bs = some p → ecvToken <+: bs)
    (pre rest : List Nat)
    (huq : ∀ i, tokAt (pre ++ rest) i → i = pre.length) :
    searchWith m (pre ++ rest) = m rest := by
  have hpre : ∀ i, i < pre.length → ¬ tokAt (pre ++ rest) i := by
    intro i hlt ht
    have := huq i ht
    omega
  rw [searchWith_skip m hm pre rest hpre]
  cases rest with
  | nil =>
    rw [searchWith]
    cases hmz : m [] with
    | some p => rfl
    | none => rfl
  | cons b t =>
    rw [searchWith]
    cases hmz : m (b :: t) with
    | some p => rfl
    | none =>
      simp only []
      apply searchWith_none_of m hm t
      intro j htj
      have hsh := tokAt_shift pre (b :: t) (j + 1) ((tokAt_cons_succ b t j).mpr htj)
      have := huq _ hsh
      omega

theorem reSub_at_unique (m : List Nat → Option (List Nat × List Nat))
    (hm : ∀ bs p, m bs = some p → ecvToken <+: bs)
    (hlen : ∀ bs g rest, m bs = some (g, rest) → rest.length < bs.length)
    (repl pre rest g rest2 : List Nat)
    (huq : ∀ i, tokAt (pre ++ rest) i → i = pre.length)
    (hc : m rest = some (g, rest2)) (hrest2 : ∀ i, ¬ tokAt rest2 i) :
    reSub m repl (pre ++ rest) = pre ++ (repl ++ rest2) := by
  have hpre : ∀ i, i < pre.length → ¬ tokAt (pre ++ rest) i := by
    intro i hlt ht
    have := huq i ht
    omega
  rw [reSub_skip m repl hm pre rest hpre,
    reSub_head m repl hm hlen rest g rest2 hc hrest2]

/-! ### Character-level bridges for the extraction chain -/

theorem filter_map_toNat (p : Nat → Bool) (s : List Char) :
    (s.map Char.toNat).filter p = (s.filter (fun c => p c.toNat)).map Char.toNat := by
  induction s with
  | nil => rfl
  | cons c t ih =>
    simp only [List.map_cons, List.filter]
    cases hp : p c.toNat <;> simp [hp, ih]

theorem asciiIgnore_map_toNat (s : List Char) (h : ∀ c ∈ s, c.toNat < 128) :
    asciiIgnore (s.map Char.toNat) = s := by
  induction s with
  | nil => rfl
  | cons c t ih =>
    have hc := h c (by simp)
    have ht := ih (fun d hd => h d (by simp [hd]))
    rw [asciiIgnore] at ht ⊢
    simp only [List.map_cons, List.filter_cons]
    rw [if_pos (by simpa using hc)]
    simp only [List.map_cons, ht]
    rw [Char.ofNat_toNat]


/-! ### Extraction succeeds on the freshly written field -/

theorem upChars_hexKeep (v : J) :
    ∀ c ∈ pyUpper (bytesHex (utf16be (ser v))), hexKeep c = true := by
  intro c hc
  rcases upperHex_mem _ (utf16be_lt256 (ser v)) c hc with h | h <;>
    · rw [hexKeep]
      simp
      omega

theorem stripHexWs_group (v : J) :
    asciiIgnore (stripHexWs (32 :: (joinSpace (chunk2 (pyUpper (bytesHex
      (utf16be (ser v)))))).map Char.toNat)) =
    pyUpper (bytesHex (utf16be (ser v))) := by
  rw [stripHexWs]
  simp only [List.filter_cons]
  rw [if_neg (by decide), filter_map_toNat]
  have hsame : (joinSpace (chunk2 (pyUpper (bytesHex (utf16be (ser v)))))).filter
      (fun c => !(c.toNat == 32 || c.toNat == 10 || c.toNat == 13)) =
      (joinSpace (chunk2 (pyUpper (bytesHex (utf16be (ser v)))))).filter hexKeep := rfl
  rw [hsame, despace_joinSpace_chunk2 _ (upChars_hexKeep v)]
  exact asciiIgnore_map_toNat _ (fun c hc => by
    rcases upperHex_mem _ (utf16be_lt256 (ser v)) c hc with h | h <;> omega)

theorem extract_repl (v : J) (pre post : List Nat) (hwf : wfJ v = true)
    (hpre : ∀ i, i < pre.length → ¬ tokAt (pre ++ (replacementBytes v ++ post)) i)
    (hpost : ∀ i, ¬ tokAt post i) :
    extract_json_data (pre ++ (replacementBytes v ++ post)) = Except.ok v := by
  have huq := tok_in_repl v pre post hpre hpost
  have hs1 : searchWith matchP1 (pre ++ (replacementBytes v ++ post)) = none := by
    rw [search_at_unique matchP1 (fun bs p h => by
      cases p with
      | mk g r => exact matchP1_pref bs g r h) pre _ huq, matchP1_at_repl]
  have hs2 : searchWith matchP2 (pre ++ (replacementBytes v ++ post)) =
      some (32 :: (joinSpace (chunk2 (pyUpper (bytesHex
        (utf16be (ser v)))))).map Char.toNat, post) := by
    rw [search_at_unique matchP2 (fun bs p h => by
      cases p with
      | mk g r => exact matchP2_pref bs g r h) pre _ huq, matchP2_at_repl]
  have hes : extractSearch (pre ++ (replacementBytes v ++ post)) =
      some (32 :: (joinSpace (chunk2 (pyUpper (bytesHex
        (utf16be (ser v)))))).map Char.toNat) := by
    rw [extractSearch, hs1, hs2]
  rw [extract_json_data, hes]
  simp only []
  rw [stripHexWs_group, pyFromhex_hex _ (utf16be_lt256 (ser v))]
  simp only []
  rw [utf16beDecode_encode]
  simp only []
  rw [jsonLoads_ser v hwf]

/-! ### The embedding replaces exactly the field span -/

theorem huq_of_count (pre mid post : List Nat)
    (huniq : countTok (pre ++ (ecvToken ++ (mid ++ 62 :: post))) = 1) :
    ∀ i, tokAt (pre ++ (ecvToken ++ (mid ++ 62 :: post))) i → i = pre.length := by
  intro i hi
  exact tok_unique pre (mid ++ 62 :: post)
    (by rw [List.append_assoc]; exact huniq) i (by rw [List.append_assoc]; exact hi)

theorem hpost_of_uniq (pre mid post : List Nat)
    (huq : ∀ i, tokAt (pre ++ (ecvToken ++ (mid ++ 62 :: post))) i → i = pre.length) :
    ∀ j, ¬ tokAt post j := by
  intro j hj
  have hs := tokAt_shift (pre ++ (ecvToken ++ (mid ++ [62]))) post j hj
  have hb : (pre ++ (ecvToken ++ (mid ++ [62]))) ++ post =
      pre ++ (ecvToken ++ (mid ++ 62 :: post)) := by simp
  rw [hb] at hs
  have heq := huq _ hs
  have hlen : ecvToken.length = 9 := by rw [ecvToken_eq]; rfl
  simp only [List.length_append, hlen] at heq
  omega

theorem save_frame (D : J) (pre mid post : List Nat)
    (huniq : countTok (pre ++ (ecvToken ++ (mid ++ 62 :: post))) = 1)
    (h62 : ∀ b ∈ mid, b ≠ 62) :
    save_pdf D (pre ++ (ecvToken ++ (mid ++ 62 :: post))) =
      Except.ok (pre ++ (replacementBytes D ++ post)) := by
  have huq := huq_of_count pre mid post huniq
  have hpost := hpost_of_uniq pre mid post huq
  have hp1pref : ∀ bs p, matchP1 bs = some p → ecvToken <+: bs := by
    intro bs p h
    cases p with
    | mk g r => exact matchP1_pref bs g r h
  have hp2pref : ∀ bs p, matchP2 bs = some p → ecvToken <+: bs := by
    intro bs p h
    cases p with
    | mk g r => exact matchP2_pref bs g r h
  have hse1 : searchWith matchP1 (pre ++ (ecvToken ++ (mid ++ 62 :: post))) =
      matchP1 (ecvToken ++ (mid ++ 62 :: post)) :=
    search_at_unique matchP1 hp1pref pre _ huq
  have hse2 : searchWith matchP2 (pre ++ (ecvToken ++ (mid ++ 62 :: post))) =
      matchP2 (ecvToken ++ (mid ++ 62 :: post)) :=
    search_at_unique matchP2 hp2pref pre _ huq
  rw [save_pdf]
  cases hm1 : matchP1 (ecvToken ++ (mid ++ 62 :: post)) with
  | some p =>
    obtain ⟨g, rest2⟩ := p
    obtain ⟨w, hw, hg, hgne, hsh⟩ := matchP1_structure _ _ _ hm1
    have hcan : mid ++ 62 :: post =
        (w ++ 60 :: 70 :: 69 :: 70 :: 70 :: g) ++ 62 :: rest2 := by
      have h2 := List.append_cancel_left hsh
      rw [h2]
      simp
    have hys : ∀ b ∈ w ++ 60 :: 70 :: 69 :: 70 :: 70 :: g, b ≠ 62 := by
      intro b hb
      rcases List.mem_append.mp hb with h | h
      · exact bWs_ne_62 b (hw b h)
      · simp only [List.mem_cons] at h
        rcases h with h | h | h | h | h | h
        · omega
        · omega
        · omega
        · omega
        · omega
        · exact hg b h
    obtain ⟨hmid, hrp⟩ := append62_inj mid _ post rest2 h62 hys hcan
    have hrest2 : ∀ i, ¬ tokAt rest2 i := by
      rw [← hrp]
      exact hpost
    rw [if_pos (by rw [hse1, hm1]; rfl)]
    rw [reSub_at_unique matchP1 hp1pref matchP1_len (replacementBytes D)
      pre _ g rest2 huq hm1 hrest2, hrp]
  | none =>
    rw [if_neg (by rw [hse1, hm1]; simp)]
    cases hm2 : matchP2 (ecvToken ++ (mid ++ 62 :: post)) with
    | some p =>
      obtain ⟨g, rest2⟩ := p
      obtain ⟨w1, w2, hw1, hw2, hg, hgne, hsh⟩ := matchP2_structure _ _ _ hm2
      have hcan : mid ++ 62 :: post =
          (w1 ++ 60 :: 70 :: 69 :: (w2 ++ 70 :: 70 :: g)) ++ 62 :: rest2 := by
        have h2 := List.append_cancel_left hsh
        rw [h2]
        simp
      have hys : ∀ b ∈ w1 ++ 60 :: 70 :: 69 :: (w2 ++ 70 :: 70 :: g), b ≠ 62 := by
        intro b hb
        rcases List.mem_append.mp hb with h | h
        · exact bWs_ne_62 b (hw1 b h)
        · simp only [List.mem_cons] at h
          rcases h with h | h | h | h
          · omega
          · omega
          · omega
          · rcases List.mem_append.mp h with h2 | h2
            · exact bWs_ne_62 b (hw2 b h2)
            · simp only [List.mem_cons] at h2
              rcases h2 with h2 | h2 | h2
              · omega
              · omega
              · exact hg b h2
      obtain ⟨hmid, hrp⟩ := append62_inj mid _ post rest2 h62 hys hcan
      have hrest2 : ∀ i, ¬ tokAt rest2 i := by
        rw [← hrp]
        exact hpost
      rw [if_pos (by rw [hse2, hm2]; rfl)]
      rw [reSub_at_unique matchP2 hp2pref matchP2_len (replacementBytes D)
        pre _ g rest2 huq hm2 hrest2, hrp]
    | none =>
      rw [if_neg (by rw [hse2, hm2]; simp)]
      have hpre : ∀ i, i < pre.length →
          ¬ tokAt (pre ++ (ecvToken ++ (mid ++ 62 :: post))) i := by
        intro i hlt ht
        have := huq i ht
        omega
      rw [findTokenIdx_spec pre (mid ++ 62 :: post) hpre]
      simp only []
      rw [findGtFrom, List.drop_left]
      have h62tok : (62 : Nat) ∉ ecvToken ++ mid := by
        intro hb
        rcases List.mem_append.mp hb with h | h
        · rw [ecvToken_eq] at h
          simp at h
        · exact h62 62 h rfl
      have hfb : findByteIdx 62 (ecvToken ++ (mid ++ 62 :: post)) =
          some (ecvToken ++ mid).length := by
        rw [show ecvToken ++ (mid ++ 62 :: post) = (ecvToken ++ mid) ++ 62 :: post
          from by simp]
        exact findByteIdx_spec 62 (ecvToken ++ mid) post h62tok
      rw [hfb]
      simp only []
      rw [List.take_left]
      have hdrop : (pre ++ (ecvToken ++ (mid ++ 62 :: post))).drop
          (pre.length + (ecvToken ++ mid).length + 1) = post := by
        rw [show pre ++ (ecvToken ++ (mid ++ 62 :: post)) =
          (pre ++ (ecvToken ++ (mid ++ [62]))) ++ post from by simp]
        apply List.drop_left'
        simp only [List.length_append, List.length_cons, List.length_nil]
        omega
      rw [hdrop, List.append_assoc]


theorem tokAt_pre_transfer (pre A Y Z : List Nat) (i : Nat) (hi : i < pre.length)
    (hA : A.length = 9) (ht : tokAt (pre ++ (A ++ Z)) i) : tokAt (pre ++ (A ++ Y)) i := by
  apply tokAt_of_take _ _ i ?_ ht
  have h1 : (pre ++ (A ++ Y)).take (i + 9) = (pre ++ A).take (i + 9) := by
    rw [show pre ++ (A ++ Y) = (pre ++ A) ++ Y from by simp]
    exact List.take_append_of_le_length (by simp only [List.length_append, hA]; omega)
  have h2 : (pre ++ (A ++ Z)).take (i + 9) = (pre ++ A).take (i + 9) := by
    rw [show pre ++ (A ++ Z) = (pre ++ A) ++ Z from by simp]
    exact List.take_append_of_le_length (by simp only [List.length_append, hA]; omega)
  rw [h1, h2]

/-- C1: embedding a document and extracting it back is the identity, provided
the original buffer carries the `/ecv-data` name exactly once and the field
body reaches a `>` terminator; the document may nest arbitrary well-formed
objects with non-ASCII strings, and every field of it round-trips through
`save_pdf` followed by `extract_json_data`. -/
theorem C1_embed_extract_roundtrip (D : J) (pre mid post : List Nat)
    (hwf : wfJ D = true)
    (huniq : countTok (pre ++ (ecvToken ++ (mid ++ 62 :: post))) = 1)
    (h62 : ∀ b ∈ mid, b ≠ 62) :
    save_pdf D (pre ++ (ecvToken ++ (mid ++ 62 :: post))) =
      Except.ok (pre ++ (replacementBytes D ++ post)) ∧
    extract_json_data (pre ++ (replacementBytes D ++ post)) = Except.ok D := by
  have huq := huq_of_count pre mid post huniq
  have hpost := hpost_of_uniq pre mid post huq
  refine ⟨save_frame D pre mid post huniq h62, ?_⟩
  apply extract_repl D pre post hwf ?_ hpost
  intro i hlt ht
  rw [replacementBytes_eq] at ht
  have hB := tokAt_pre_transfer pre ecvToken (mid ++ 62 :: post) _ i hlt
    (by rw [ecvToken_eq]; rfl) ht
  have := huq i hB
  omega

/-- C1 (counterexample to the unconditional claim): a buffer holding the
`/ecv-data` name twice.  `save_pdf` rewrites only the second, pattern-1 style
occurrence, and `extract_json_data` then reads the first, stale occurrence
back, so the round trip returns `1` instead of the embedded `{}`. -/
theorem C1_counterexample :
    save_pdf (J.obj [])
        (ecvToken ++ ([32, 60, 70, 69, 32, 70, 70, 32, 48, 48, 32, 51, 49, 62, 32] ++
          (ecvToken ++ [60, 70, 69, 70, 70, 48, 48, 52, 50, 62]))) =
      Except.ok (ecvToken ++ ([32, 60, 70, 69, 32, 70, 70, 32, 48, 48, 32, 51, 49, 62, 32] ++
        replacementBytes (J.obj []))) ∧
    extract_json_data (ecvToken ++ ([32, 60, 70, 69, 32, 70, 70, 32, 48, 48, 32, 51, 49, 62, 32] ++
        replacementBytes (J.obj []))) = Except.ok (J.num 1) ∧
    J.num 1 ≠ J.obj [] :=
  ⟨rfl, rfl, fun h => J.noConfusion h⟩

theorem C1_embed_extract_roundtrip_witness :
    wfJ (J.obj []) = true ∧
    countTok ([37] ++ (ecvToken ++ ([32, 60, 70, 69, 70, 70, 48, 48, 51, 49] ++
      62 :: [10]))) = 1 ∧
    (∀ b ∈ [32, 60, 70, 69, 70, 70, 48, 48, 51, 49], b ≠ (62 : Nat)) ∧
    (save_pdf (J.obj []) ([37] ++ (ecvToken ++ ([32, 60, 70, 69, 70, 70, 48, 48, 51, 49] ++
        62 :: [10]))) = Except.ok ([37] ++ (replacementBytes (J.obj []) ++ [10])) ∧
      extract_json_data ([37] ++ (replacementBytes (J.obj []) ++ [10])) =
        Except.ok (J.obj [])) :=
  ⟨rfl, by decide, by decide,
    C1_embed_extract_roundtrip (J.obj []) [37] [32, 60, 70, 69, 70, 70, 48, 48, 51, 49]
      [10] rfl (by decide) (by decide)⟩

theorem findTokenIdx_isSome : ∀ (bs : List Nat) (i : Nat), tokAt bs i →
    (findTokenIdx bs).isSome = true
  | [], i => by
    intro h
    rw [tokAt, List.drop_nil] at h
    have := h.length_le
    simp [ecvToken] at this
  | b :: t, i => by
    intro h
    rw [findTokenIdx]
    cases hc : (matchLit ecvToken (b :: t)).isSome with
    | true => rfl
    | false =>
      rw [if_neg (by simp [hc])]
      cases i with
      | zero =>
        rw [tokAt, List.drop_zero] at h
        have hs := matchLit_isSome_of_pref _ _ h
        rw [hc] at hs
        exact absurd hs (by simp)
      | succ j =>
        have hrec := findTokenIdx_isSome t j ((tokAt_cons_succ b t j).mp h)
        cases hf : findTokenIdx t with
        | some k => rfl
        | none =>
          rw [hf] at hrec
          simp at hrec

/-- C2: when the `/ecv-data` name occurs exactly once and its body reaches a
terminator, `save_pdf` returns the buffer with exactly the field span swapped
for the freshly formatted field; every byte of the prefix and of the suffix is
kept, whatever whitespace style the original field used.  When no terminator
byte follows the first occurrence of the name token — earlier bytes may
freely contain terminators — every pattern fails and the manual fallback
reports the malformed-container error. -/
theorem C2_frame_fallback_malformed (D : J) (pre mid post : List Nat)
    (huniq : countTok (pre ++ (ecvToken ++ (mid ++ 62 :: post))) = 1)
    (h62 : ∀ b ∈ mid, b ≠ 62) :
    save_pdf D (pre ++ (ecvToken ++ (mid ++ 62 :: post))) =
      Except.ok (pre ++ (replacementBytes D ++ post)) ∧
    (∀ qre tail, (∀ i, i < qre.length → ¬ tokAt (qre ++ (ecvToken ++ tail)) i) →
      (62 : Nat) ∉ tail →
      save_pdf D (qre ++ (ecvToken ++ tail)) = Except.error SaveErr.malformed) := by
  refine ⟨save_frame D pre mid post huniq h62, ?_⟩
  intro qre tail hqre hno62
  have hno62' : (62 : Nat) ∉ ecvToken ++ tail := by
    intro hb
    rcases List.mem_append.mp hb with h | h
    · rw [ecvToken_eq] at h
      simp at h
    · exact hno62 h
  have hafter : ∀ n, (62 : Nat) ∈ List.drop n (qre ++ (ecvToken ++ tail)) →
      ecvToken <+: List.drop n (qre ++ (ecvToken ++ tail)) → False := by
    intro n h62mem htokn
    have hge : qre.length ≤ n := by
      by_contra hlt
      exact hqre n (by omega) htokn
    have hdropeq : List.drop n (qre ++ (ecvToken ++ tail)) =
        List.drop (n - qre.length) (ecvToken ++ tail) := by
      calc List.drop n (qre ++ (ecvToken ++ tail))
          = List.drop (n - qre.length)
              (List.drop qre.length (qre ++ (ecvToken ++ tail))) := by
            rw [List.drop_drop]
            congr 1
            omega
        _ = List.drop (n - qre.length) (ecvToken ++ tail) := by rw [List.drop_left]
    rw [hdropeq] at h62mem
    exact hno62' (List.mem_of_mem_drop h62mem)
  have hs1 : searchWith matchP1 (qre ++ (ecvToken ++ tail)) = none := by
    cases hs : searchWith matchP1 (qre ++ (ecvToken ++ tail)) with
    | none => rfl
    | some p =>
      obtain ⟨g, r⟩ := p
      obtain ⟨n, hn⟩ := searchWith_some_ex matchP1 _ _ hs
      exact absurd (matchP1_pref _ _ _ hn) (hafter n (matchP1_has62 _ _ _ hn))
  have hs2 : searchWith matchP2 (qre ++ (ecvToken ++ tail)) = none := by
    cases hs : searchWith matchP2 (qre ++ (ecvToken ++ tail)) with
    | none => rfl
    | some p =>
      obtain ⟨g, r⟩ := p
      obtain ⟨n, hn⟩ := searchWith_some_ex matchP2 _ _ hs
      exact absurd (matchP2_pref _ _ _ hn) (hafter n (matchP2_has62 _ _ _ hn))
  rw [save_pdf, if_neg (by rw [hs1]; simp), if_neg (by rw [hs2]; simp)]
  rw [findTokenIdx_spec qre tail hqre]
  simp only []
  rw [findGtFrom, List.drop_left, findByteIdx_none 62 _ hno62']

theorem C2_frame_fallback_malformed_witness :
    countTok ([] ++ (ecvToken ++ ([32, 60, 65] ++ 62 :: [33]))) = 1 ∧
    (∀ b ∈ [32, 60, 65], b ≠ (62 : Nat)) ∧
    save_pdf (J.num 7) ([] ++ (ecvToken ++ ([32, 60, 65] ++ 62 :: [33]))) =
      Except.ok ([] ++ (replacementBytes (J.num 7) ++ [33])) ∧
    (∀ i, i < [62, 37].length → ¬ tokAt ([62, 37] ++ (ecvToken ++ [32])) i) ∧
    (62 : Nat) ∉ [32] ∧
    save_pdf (J.num 7) ([62, 37] ++ (ecvToken ++ [32])) = Except.error SaveErr.malformed :=
  ⟨by decide, by decide,
    (C2_frame_fallback_malformed (J.num 7) [] [32, 60, 65] [33] (by decide) (by decide)).1,
    by unfold tokAt; decide, by decide,
    (C2_frame_fallback_malformed (J.num 7) [] [32, 60, 65] [33] (by decide) (by decide)).2
      [62, 37] [32] (by unfold tokAt; decide) (by decide)⟩

/-- C5 (amended): the extraction outcome follows the decode chain, except that
a hex-decode failure surfaces as the uncaught `ValueError` of `bytes.fromhex`
(`hexError`), not as a `DecodeError`: `fieldNotFound` exactly when no tolerant
pattern matches anywhere; otherwise the matched group decides between the
uncaught hex failure, a UTF-16 `DecodeError`, a JSON `DecodeError`, and
success with the parsed document. -/
theorem C5_error_cases (content : List Nat) :
    (extract_json_data content = Except.error ExtractErr.fieldNotFound ↔
      extractSearch content = none) ∧
    (∀ g, extractSearch content = some g →
      (pyFromhex (asciiIgnore (stripHexWs g)) = none ∧
        extract_json_data content = Except.error ExtractErr.hexError) ∨
      (∃ bs, pyFromhex (asciiIgnore (stripHexWs g)) = some bs ∧
        ((utf16beDecode bs = none ∧ extract_json_data content =
            Except.error (ExtractErr.decodeError DecodeCause.utf16)) ∨
         (∃ s, utf16beDecode bs = some s ∧
           ((jsonLoads s = none ∧ extract_json_data content =
               Except.error (ExtractErr.decodeError DecodeCause.json)) ∨
            (∃ v, jsonLoads s = some v ∧
              extract_json_data content = Except.ok v)))))) := by
  constructor
  · cases hes : extractSearch content with
    | none =>
      rw [extract_json_data, hes]
      exact ⟨fun _ => rfl, fun _ => rfl⟩
    | some g =>
      constructor
      · intro h
        rw [extract_json_data, hes] at h
        simp only [] at h
        exfalso
        cases hf : pyFromhex (asciiIgnore (stripHexWs g)) with
        | none =>
          rw [hf] at h
          simp only [] at h
          exact absurd h (by simp)
        | some bs =>
          rw [hf] at h
          simp only [] at h
          cases hu : utf16beDecode bs with
          | none =>
            rw [hu] at h
            simp only [] at h
            exact absurd h (by simp)
          | some s =>
            rw [hu] at h
            simp only [] at h
            cases hj : jsonLoads s with
            | none =>
              rw [hj] at h
              simp only [] at h
              exact absurd h (by simp)
            | some v =>
              rw [hj] at h
              simp only [] at h
              exact absurd h (by simp)
      · intro h
        exact Option.noConfusion h
  · intro g hg
    have hrw : extract_json_data content =
        (match pyFromhex (asciiIgnore (stripHexWs g)) with
         | none => Except.error ExtractErr.hexError
         | some bytesData =>
           match utf16beDecode bytesData with
           | none => Except.error (ExtractErr.decodeError DecodeCause.utf16)
           | some jsonStr =>
             match jsonLoads jsonStr with
             | none => Except.error (ExtractErr.decodeError DecodeCause.json)
             | some v => Except.ok v) := by
      rw [extract_json_data, hg]
    cases hf : pyFromhex (asciiIgnore (stripHexWs g)) with
    | none =>
      rw [hf] at hrw
      simp only [] at hrw
      exact Or.inl ⟨rfl, hrw⟩
    | some bs =>
      rw [hf] at hrw
      simp only [] at hrw
      refine Or.inr ⟨bs, rfl, ?_⟩
      cases hu : utf16beDecode bs with
      | none =>
        rw [hu] at hrw
        simp only [] at hrw
        exact Or.inl ⟨rfl, hrw⟩
      | some s =>
        rw [hu] at hrw
        simp only [] at hrw
        refine Or.inr ⟨s, rfl, ?_⟩
        cases hj : jsonLoads s with
        | none =>
          rw [hj] at hrw
          simp only [] at hrw
          exact Or.inl ⟨rfl, hrw⟩
        | some v =>
          rw [hj] at hrw
          simp only [] at hrw
          exact Or.inr ⟨v, rfl, hrw⟩

/-- C5 (counterexample to the spec's error taxonomy): a matched field whose
group is not valid hexadecimal makes `bytes.fromhex` raise `ValueError`, which
the inner handler does not catch, so the failure is not a `DecodeError`. -/
theorem C5_counterexample :
    extract_json_data (ecvToken ++ [32, 60, 70, 69, 70, 70, 71, 71, 62]) =
      Except.error ExtractErr.hexError ∧
    (∀ cause, ExtractErr.hexError ≠ ExtractErr.decodeError cause) :=
  ⟨rfl, fun _ h => ExtractErr.noConfusion h⟩

theorem C5_error_cases_witness :
    (extract_json_data [] = Except.error ExtractErr.fieldNotFound ↔
      extractSearch [] = none) ∧
    ((pyFromhex (asciiIgnore (stripHexWs [71, 71])) = none ∧
        extract_json_data (ecvToken ++ [32, 60, 70, 69, 70, 70, 71, 71, 62]) =
          Except.error ExtractErr.hexError) ∨
      (∃ bs, pyFromhex (asciiIgnore (stripHexWs [71, 71])) = some bs ∧
        ((utf16beDecode bs = none ∧
            extract_json_data (ecvToken ++ [32, 60, 70, 69, 70, 70, 71, 71, 62]) =
              Except.error (ExtractErr.decodeError DecodeCause.utf16)) ∨
         (∃ s, utf16beDecode bs = some s ∧
           ((jsonLoads s = none ∧
               extract_json_data (ecvToken ++ [32, 60, 70, 69, 70, 70, 71, 71, 62]) =
                 Except.error (ExtractErr.decodeError DecodeCause.json)) ∨
            (∃ v, jsonLoads s = some v ∧
              extract_json_data (ecvToken ++ [32, 60, 70, 69, 70, 70, 71, 71, 62]) =
                Except.ok v)))))) :=
  ⟨(C5_error_cases []).1,
    (C5_error_cases (ecvToken ++ [32, 60, 70, 69, 70, 70, 71, 71, 62])).2
      [71, 71] (by decide)⟩

theorem chunk2_len2 : ∀ (s : List Char), s.length % 2 = 0 →
    ∀ ch ∈ chunk2 s, ch.length = 2
  | [] => by
    intro _ ch hch
    simp [chunk2] at hch
  | [a] => by
    intro h
    simp at h
  | a :: b :: t => by
    intro h ch hch
    rw [chunk2] at hch
    rcases List.mem_cons.mp hch with h2 | h2
    · rw [h2]
      rfl
    · refine chunk2_len2 t ?_ ch h2
      simp only [List.length_cons] at h
      omega

/-- C8: the field text written by `save_pdf` is uppercase hexadecimal
(`0-9A-F` only, before grouping), grouped into 2-character chunks joined by
single spaces, and starts with the BOM bytes `FEFF`. -/
theorem C8_hex_uppercase_grouped (D : J) :
    (∀ c ∈ hexData D, (48 ≤ c.toNat ∧ c.toNat ≤ 57) ∨ (65 ≤ c.toNat ∧ c.toNat ≤ 70)) ∧
    (∀ ch ∈ chunk2 (hexData D), ch.length = 2) ∧
    (hexData D).take 4 = ['F', 'E', 'F', 'F'] ∧
    hexFormatted D = joinSpace (chunk2 (hexData D)) := by
  refine ⟨?_, ?_, ?_, rfl⟩
  · intro c hc
    rw [hexData] at hc
    rcases List.mem_append.mp hc with h | h
    · rw [show ("FEFF".data : List Char) = ['F', 'E', 'F', 'F'] from rfl] at h
      simp only [List.mem_cons, List.not_mem_nil, or_false] at h
      rcases h with h | h | h | h <;> (rw [h]; exact Or.inr (by decide))
    · exact upperHex_mem _ (utf16be_lt256 (ser D)) c h
  · have hb := bytesHex_length (utf16be (ser D))
    refine chunk2_len2 _ ?_
    rw [hexData, show ("FEFF".data : List Char) = ['F', 'E', 'F', 'F'] from rfl]
    simp only [List.length_append, List.length_cons, List.length_nil, pyUpper,
      List.length_map]
    omega
  · rw [hexData, show ("FEFF".data : List Char) = ['F', 'E', 'F', 'F'] from rfl,
      List.take_append_of_le_length (by simp)]
    rfl


/-! ### The renderer (pdf_renderer.py)

Text is `List Char`.  Python string methods (`strip`, `isupper`) and the
regex classes `\s`, `\d`, `[A-Z]` are modelled on the ASCII repertoire the
markers and entities of this module live in. -/

/-- Python string whitespace (`str.strip`, regex `\s`), ASCII repertoire. -/
def pyWsB (c : Char) : Bool :=
  c = ' ' || c = '\t' || c = '\n' || c = '\r' || c.toNat == 11 || c.toNat == 12

/-- `s.lstrip()`. -/
def pyLStrip (s : List Char) : List Char := s.dropWhile pyWsB

/-- `s.rstrip()`. -/
def pyRStrip (s : List Char) : List Char := (s.reverse.dropWhile pyWsB).reverse

/-- `s.strip()`. -/
def pyStrip (s : List Char) : List Char := pyRStrip (pyLStrip s)

/-- `re.sub(r'^\s*\d+\.\s*', '', s)` (lines 173 and 188): leading
whitespace, one or more digits, a dot, trailing whitespace — removed once
at the start when the whole pattern is present. -/
def subOrdinal (s : List Char) : List Char :=
  let t1 := s.dropWhile pyWsB
  match t1.takeWhile isDig, t1.dropWhile isDig with
  | [], _ => s
  | _ :: _, '.' :: t3 => t3.dropWhile pyWsB
  | _ :: _, _ => s

/-- `re.sub(r'^[•\-–—]\s*', '', s)` (lines 174 and 189). -/
def subBullet (s : List Char) : List Char :=
  match s with
  | c :: t =>
    if c = '•' || c = '-' || c = '–' || c = '—' then t.dropWhile pyWsB else s
  | [] => s

/-- `c.isupper()` / the class `[A-Z]`, ASCII repertoire. -/
def pyIsUpperA (c : Char) : Bool := 65 ≤ c.toNat && c.toNat ≤ 90

/-- Lines 176-178: strip a single leading character plus space/tab when the
first character is `n`/`N` or the third is uppercase. -/
def titleCharRule (s : List Char) : List Char :=
  match s with
  | a :: b :: c :: rest =>
    if (b = ' ' || b = '\t') && (a = 'n' || a = 'N' || pyIsUpperA c) then
      (c :: rest).dropWhile pyWsB
    else s
  | _ => s

/-- `re.sub(r'^.\s+(?=[A-Z])', '', s)` (line 191): any character other than
a newline, at least one whitespace, with an uppercase letter right after. -/
def subCharUpper (s : List Char) : List Char :=
  match s with
  | a :: t =>
    if a = '\n' then s
    else if (t.takeWhile pyWsB).isEmpty then s
    else
      match t.dropWhile pyWsB with
      | c :: rest => if pyIsUpperA c then c :: rest else s
      | [] => s
  | [] => s

/-- The `while True` loop of `_normalize_paragraph` (lines 190-194). -/
def paraLoop : Nat → List Char → List Char
  | 0, s => s
  | fuel + 1, s =>
    let s2 := subCharUpper s
    if s2 = s then s else paraLoop fuel (pyStrip s2)

/-- `PDFRenderer._normalize_display_title` (lines 166-179). -/
def normalize_display_title (raw : List Char) : List Char :=
  if raw.isEmpty then []
  else pyStrip (titleCharRule (subBullet (subOrdinal (pyStrip raw))))

/-- `PDFRenderer._normalize_paragraph` (lines 181-194). -/
def normalize_paragraph (raw : List Char) : List Char :=
  if raw.isEmpty then []
  else
    pyStrip (paraLoop ((subBullet (subOrdinal (pyStrip raw))).length + 1)
      (subBullet (subOrdinal (pyStrip raw))))

/-- Maximal run of characters other than `>`, with the remainder. -/
def takeNonGtC : List Char → List Char × List Char
  | [] => ([], [])
  | c :: t =>
    if c = '>' then ([], c :: t)
    else
      match takeNonGtC t with
      | (r, rest) => (c :: r, rest)

/-- `<[^>]+>` right after a `<`: at least one non-`>` character up to the
first `>`. -/
def tagMatch (t : List Char) : Option (List Char) :=
  match takeNonGtC t with
  | (g, rest) =>
    match rest with
    | '>' :: r => if g.isEmpty then none else some r
    | _ => none

/-- `re.sub(r'<[^>]+>', '', text)` (line 124): all tag matches removed,
scanning left to right. -/
def stripTagsGo : Nat → List Char → List Char
  | 0, s => s
  | _, [] => []
  | fuel + 1, c :: t =>
    if c = '<' then
      match tagMatch t with
      | some rest => stripTagsGo fuel rest
      | none => c :: stripTagsGo fuel t
    else c :: stripTagsGo fuel t

def stripTags (s : List Char) : List Char := stripTagsGo (s.length + 1) s

/-- `text.replace(pat, rep)`: all occurrences, left to right. -/
def pyReplaceGo (pat rep : List Char) : Nat → List Char → List Char
  | 0, s => s
  | _, [] => []
  | fuel + 1, c :: t =>
    if pat.isPrefixOf (c :: t) then rep ++ pyReplaceGo pat rep fuel ((c :: t).drop pat.length)
    else c :: pyReplaceGo pat rep fuel t

def pyReplace (pat rep s : List Char) : List Char := pyReplaceGo pat rep (s.length + 1) s

/-- `PDFRenderer.clean_html_text` (lines 120-131): strip tags, decode the
four entities, trim. -/
def clean_html_text (text : List Char) : List Char :=
  if text.isEmpty then []
  else
    pyStrip (pyReplace "&gt;".data ">".data
      (pyReplace "&lt;".data "<".data
        (pyReplace "&amp;".data "&".data
          (pyReplace "&nbsp;".data " ".data (stripTags text)))))

/-- Truthiness of an optional lookup result. -/
def optTruthy : Option J → Bool
  | none => false
  | some v => pyTruthy v

/-- The 13-slot month table of `format_date_range` (lines 142-143). -/
def monthsTable : List (List Char) :=
  [[], ['0', '1'], ['0', '2'], ['0', '3'], ['0', '4'], ['0', '5'], ['0', '6'],
    ['0', '7'], ['0', '8'], ['0', '9'], ['1', '0'], ['1', '1'], ['1', '2']]

/-- `str.zfill(2)` on an unsigned decimal string. -/
def zfill2 (s : List Char) : List Char :=
  if s.length < 2 then List.replicate (2 - s.length) '0' ++ s else s

/-- `months[m] if m < len(months) else str(m).zfill(2)` (line 147): Python
list indexing admits negatives down to `-13`; below that it raises
`IndexError` (modelled as `none`). -/
def monthStr (m : Int) : Option (List Char) :=
  if m < 13 then
    if 0 ≤ m then some (monthsTable.getD m.toNat [])
    else if -13 ≤ m then some (monthsTable.getD (13 + m).toNat [])
    else none
  else some (zfill2 (intChars m))

/-- `f"{v}"` for the scalar values the documents carry (`str(v)`);
containers are left unmodelled. -/
def jStrAny : J → Option (List Char)
  | J.num n => some (intChars n)
  | J.str s => some s
  | J.bool true => some "True".data
  | J.bool false => some "False".data
  | J.null => some "None".data
  | _ => none

/-- The `f"{months[m] ...}/{year}"` string for a truthy month value; a
non-integer month would raise on the `<` comparison of line 147. -/
def monthYear (mv yv : J) : Option (List Char) :=
  match mv with
  | J.num m =>
    match monthStr m, jStrAny yv with
    | some ms, some ys => some (ms ++ '/' :: ys)
    | _, _ => none
  | _ => none

/-- Lines 145-147: the start half, `""` unless both fields are truthy. -/
def fromPart : Option J → Option J → Option (List Char)
  | some mv, some yv =>
    if pyTruthy mv && pyTruthy yv then monthYear mv yv else some []
  | _, _ => some []

/-- The `elif to_year: ... else: ""` tail of lines 154-157. -/
def toYearOnly : Option J → Option (List Char)
  | some yv => if pyTruthy yv then jStrAny yv else some []
  | none => some []

/-- Lines 149-157: the end half; `isOngoing` short-circuits to `Present`. -/
def toPart (tm ty : Option J) (ongoing : Bool) : Option (List Char) :=
  if ongoing then some "Present".data
  else
    match tm, ty with
    | some mv, some yv =>
      if pyTruthy mv && pyTruthy yv then monthYear mv yv else toYearOnly ty
    | _, _ => toYearOnly ty

/-- `PDFRenderer.format_date_range` (lines 133-164). -/
def format_date_range (d : J) : Option (List Char) :=
  if pyTruthy d = false then some []
  else
    match fromPart (pyGet d "fromMonth".data) (pyGet d "fromYear".data),
        toPart (pyGet d "toMonth".data) (pyGet d "toYear".data)
          (pyTruthy (pyGetD d "isOngoing".data (J.bool false))) with
    | some fs, some ts =>
      if fs.isEmpty then some []
      else if ts.isEmpty then some fs
      else some (fs ++ ' ' :: '-' :: ' ' :: ts)
    | _, _ => none

/-- `section.get('items', [])` as a list (the loops iterate over it). -/
def itemsOf (sec : J) : List J :=
  match pyGet sec "items".data with
  | some (J.arr xs) => xs
  | _ => []

/-- `k in item` (key presence). -/
def hasKey (it : J) (k : List Char) : Bool := (pyGet it k).isSome

/-- `item.get(k) is not None`. -/
def presentNotNone (it : J) (k : List Char) : Bool :=
  match pyGet it k with
  | some J.null => false
  | some _ => true
  | none => false

/-- `_section_has_summary_items` (lines 45-50): an item whose `text` is
present, non-`None`, and whose `str()` has non-whitespace content. -/
def hasSummaryItem (items : List J) : Bool :=
  items.any (fun it =>
    match pyGet it "text".data with
    | none => false
    | some J.null => false
    | some (J.str s) => !(pyStrip s).isEmpty
    | some _ => true)

/-- `_section_has_experience_items` (lines 53-61): role or company key. -/
def hasExperienceItem (items : List J) : Bool :=
  items.any (fun it =>
    hasKey it "position".data || hasKey it "title".data ||
    hasKey it "workplace".data || hasKey it "company".data)

/-- `_section_has_skill_items` (lines 74-78): a `tags` key holding a list. -/
def hasSkillItem (items : List J) : Bool :=
  items.any (fun it =>
    hasKey it "tags".data &&
    match pyGet it "tags".data with
    | some (J.arr _) => true
    | _ => false)

/-- `_section_has_project_items` (lines 64-71). -/
def hasProjectItem (items : List J) : Bool :=
  items.any (fun it =>
    optTruthy (pyGet it "title".data) || optTruthy (pyGet it "name".data) ||
    optTruthy (pyGet it "projectName".data) ||
    presentNotNone it "description".data || presentNotNone it "text".data ||
    presentNotNone it "bullets".data)

/-- The recognized explicit tags (lines 84-88). -/
def isKnownTag : J → Bool
  | J.str s =>
    decide (s = "SummarySection".data) || decide (s = "ExperienceSection".data) ||
    decide (s = "EducationSection".data) || decide (s = "TechnologySection".data) ||
    decide (s = "ActivitySection".data) || decide (s = "ProjectSection".data) ||
    decide (s = "LanguageSection".data) || decide (s = "CertificateSection".data)
  | _ => false

/-- `_resolve_section_type` (lines 81-99). -/
def resolve_section_type (sec : J) : J :=
  let t := pyGetD sec "__t".data (J.str [])
  if isKnownTag t then t
  else if hasSummaryItem (itemsOf sec) then J.str "SummarySection".data
  else if hasExperienceItem (itemsOf sec) then J.str "ExperienceSection".data
  else if hasSkillItem (itemsOf sec) then J.str "TechnologySection".data
  else if hasProjectItem (itemsOf sec) then J.str "ProjectSection".data
  else if pyTruthy t then t
  else J.str "Other".data

/-- `section.get('enabled', True)` truthiness: the render gate shared by
both backends (lines 375-377 and 547-549). -/
def sectionEnabled (sec : J) : Bool :=
  pyTruthy (pyGetD sec "enabled".data (J.bool true))

/-- The section loop of `render_with_reportlab` (lines 374-377): each
enabled section appends its flowables (`body`), a disabled one is skipped
by `continue`. -/
def storyBlocks {α : Type} (body : J → List α) : List J → List α
  | [] => []
  | sec :: rest =>
    (if sectionEnabled sec then body sec else []) ++ storyBlocks body rest

/-- The section loop of `generate_html` (lines 546-549), same gate. -/
def htmlSections {α : Type} (body : J → List α) : List J → List α
  | [] => []
  | sec :: rest =>
    (if sectionEnabled sec then body sec else []) ++ htmlSections body rest

/-- `PDFRenderer.__init__` (line 113): the renderer keeps every section of
the document, disabled ones included. -/
def rendererSections (data : J) : List J :=
  match pyGetD data "sections".data (J.arr []) with
  | J.arr xs => xs
  | _ => []


/-! ### Strip and replace lemmas -/

theorem dropWhile_head_false (p : Char → Bool) : ∀ (s : List Char) (c : Char)
    (t : List Char), s.dropWhile p = c :: t → p c = false
  | [], c, t => by
    intro h
    simp [List.dropWhile] at h
  | a :: s, c, t => by
    intro h
    rw [List.dropWhile_cons] at h
    by_cases hp : p a = true
    · rw [if_pos hp] at h
      exact dropWhile_head_false p s c t h
    · rw [if_neg hp] at h
      have h2 : a = c := by
        simp at h
        exact h.1
      rw [← h2]
      simpa using hp

theorem dropWhile_idem (p : Char → Bool) (s : List Char) :
    (s.dropWhile p).dropWhile p = s.dropWhile p := by
  cases hd : s.dropWhile p with
  | nil => rfl
  | cons c t =>
    rw [List.dropWhile_cons, if_neg (by rw [dropWhile_head_false p s c t hd]; simp)]

theorem pyRStrip_prefix (s : List Char) : pyRStrip s <+: s := by
  have h := List.reverse_prefix.mpr (List.dropWhile_suffix (l := s.reverse) pyWsB)
  rwa [List.reverse_reverse] at h

theorem pyRStrip_idem (u : List Char) : pyRStrip (pyRStrip u) = pyRStrip u := by
  rw [pyRStrip, pyRStrip, List.reverse_reverse, dropWhile_idem]

theorem pyLStrip_pyRStrip_pyLStrip (s : List Char) :
    pyLStrip (pyRStrip (pyLStrip s)) = pyRStrip (pyLStrip s) := by
  cases hr : pyRStrip (pyLStrip s) with
  | nil => rfl
  | cons c t =>
    obtain ⟨r, hrr⟩ := pyRStrip_prefix (pyLStrip s)
    rw [hr, List.cons_append] at hrr
    have hc : pyWsB c = false :=
      dropWhile_head_false pyWsB s c (t ++ r) hrr.symm
    rw [pyLStrip, List.dropWhile_cons, if_neg (by rw [hc]; simp)]

theorem pyStrip_idem (s : List Char) : pyStrip (pyStrip s) = pyStrip s := by
  rw [pyStrip, pyStrip, pyLStrip_pyRStrip_pyLStrip, pyRStrip_idem]

theorem paraLoop_fix (s : List Char) (h : subCharUpper s = s) :
    ∀ fuel, paraLoop fuel s = s
  | 0 => rfl
  | fuel + 1 => by
    show (if subCharUpper s = s then s else paraLoop fuel (pyStrip (subCharUpper s))) = s
    rw [if_pos h]

theorem stripTagsGo_no_lt : ∀ (fuel : Nat) (s : List Char), '<' ∉ s →
    stripTagsGo fuel s = s
  | 0, s => fun _ => by cases s <;> rfl
  | _ + 1, [] => fun _ => rfl
  | fuel + 1, c :: t => by
    intro h
    rw [stripTagsGo,
      if_neg (fun hc : c = '<' => h (by rw [hc]; exact List.mem_cons_self _ _)),
      stripTagsGo_no_lt fuel t (fun ht => h (List.mem_cons_of_mem _ ht))]

theorem stripTags_no_lt (s : List Char) (h : '<' ∉ s) : stripTags s = s := by
  rw [stripTags, stripTagsGo_no_lt _ s h]

theorem pyReplaceGo_no_head (pat rep : List Char) (h0 : ∃ pt, pat = '&' :: pt) :
    ∀ (fuel : Nat) (s : List Char), '&' ∉ s → pyReplaceGo pat rep fuel s = s
  | 0, s => fun _ => by cases s <;> rfl
  | _ + 1, [] => fun _ => rfl
  | fuel + 1, c :: t => by
    intro h
    obtain ⟨pt, hp⟩ := h0
    have hpre : pat.isPrefixOf (c :: t) = false := by
      cases hb : pat.isPrefixOf (c :: t) with
      | false => rfl
      | true =>
        have hpf := List.isPrefixOf_iff_prefix.mp hb
        rw [hp] at hpf
        obtain ⟨r, hrr⟩ := hpf
        rw [List.cons_append] at hrr
        have hca : c = '&' := by
          simp at hrr
          exact hrr.1.symm
        exact absurd (by rw [hca]; exact List.mem_cons_self _ _) h
    rw [pyReplaceGo, if_neg (by rw [hpre]; simp),
      pyReplaceGo_no_head pat rep ⟨pt, hp⟩ fuel t (fun ht => h (List.mem_cons_of_mem _ ht))]

theorem pyReplace_no_head (pat rep s : List Char) (h0 : ∃ pt, pat = '&' :: pt)
    (h : '&' ∉ s) : pyReplace pat rep s = s := by
  rw [pyReplace, pyReplaceGo_no_head pat rep h0 _ s h]

theorem C8_hex_uppercase_grouped_witness :
    hexFormatted (J.num 1) = joinSpace (chunk2 (hexData (J.num 1))) ∧
    (hexData (J.num 1)).take 4 = ['F', 'E', 'F', 'F'] ∧
    (∀ ch ∈ chunk2 (hexData (J.num 1)), ch.length = 2) :=
  ⟨(C8_hex_uppercase_grouped (J.num 1)).2.2.2,
    (C8_hex_uppercase_grouped (J.num 1)).2.2.1,
    (C8_hex_uppercase_grouped (J.num 1)).2.1⟩

/-! ### C6 and C7: the normalizers and the markup stripper -/

/-- C6 (amended): the marker strippers are idempotent exactly when no
marker rule applies to the stripped result of the first pass; the title
variant needs the ordinal, bullet and char-space rules to be inert, the
paragraph variant needs the ordinal, bullet and char-before-uppercase rules
to be inert.  (Unconditional idempotence fails: see the counterexample.) -/
theorem C6_conditional_idempotence (s : List Char) :
    (subOrdinal (pyStrip s) = pyStrip s → subBullet (pyStrip s) = pyStrip s →
      titleCharRule (pyStrip s) = pyStrip s →
      normalize_display_title (normalize_display_title s) = normalize_display_title s) ∧
    (subOrdinal (pyStrip s) = pyStrip s → subBullet (pyStrip s) = pyStrip s →
      subCharUpper (pyStrip s) = pyStrip s →
      normalize_paragraph (normalize_paragraph s) = normalize_paragraph s) := by
  constructor
  · intro h1 h2 h3
    have hfix : normalize_display_title s = pyStrip s := by
      by_cases hs : s.isEmpty
      · rw [normalize_display_title, if_pos hs, List.isEmpty_iff.mp hs]
        rfl
      · rw [normalize_display_title, if_neg hs, h1, h2, h3, pyStrip_idem]
    rw [hfix]
    by_cases hps : (pyStrip s).isEmpty
    · rw [normalize_display_title, if_pos hps, List.isEmpty_iff.mp hps]
    · rw [normalize_display_title, if_neg hps, pyStrip_idem, h1, h2, h3, pyStrip_idem]
  · intro h1 h2 h4
    have hfix : normalize_paragraph s = pyStrip s := by
      by_cases hs : s.isEmpty
      · rw [normalize_paragraph, if_pos hs, List.isEmpty_iff.mp hs]
        rfl
      · rw [normalize_paragraph, if_neg hs, h1, h2,
          paraLoop_fix (pyStrip s) h4 _, pyStrip_idem]
    rw [hfix]
    by_cases hps : (pyStrip s).isEmpty
    · rw [normalize_paragraph, if_pos hps, List.isEmpty_iff.mp hps]
    · rw [normalize_paragraph, if_neg hps, pyStrip_idem, h1, h2,
        paraLoop_fix (pyStrip s) h4 _, pyStrip_idem]

/-- C6 (counterexample): `"1. 2. Hello"` loses one ordinal marker per
application in both variants, so a second application strips further. -/
theorem C6_counterexample :
    ¬ (normalize_display_title (normalize_display_title "1. 2. Hello".data) =
        normalize_display_title "1. 2. Hello".data) ∧
    ¬ (normalize_paragraph (normalize_paragraph "1. 2. Hello".data) =
        normalize_paragraph "1. 2. Hello".data) := by
  decide

theorem C6_conditional_idempotence_witness :
    subOrdinal (pyStrip "Hello world".data) = pyStrip "Hello world".data ∧
    subBullet (pyStrip "Hello world".data) = pyStrip "Hello world".data ∧
    titleCharRule (pyStrip "Hello world".data) = pyStrip "Hello world".data ∧
    subCharUpper (pyStrip "Hello world".data) = pyStrip "Hello world".data ∧
    normalize_display_title (normalize_display_title "Hello world".data) =
      normalize_display_title "Hello world".data ∧
    normalize_paragraph (normalize_paragraph "Hello world".data) =
      normalize_paragraph "Hello world".data :=
  ⟨by decide, by decide, by decide, by decide,
    (C6_conditional_idempotence "Hello world".data).1 (by decide) (by decide) (by decide),
    (C6_conditional_idempotence "Hello world".data).2 (by decide) (by decide) (by decide)⟩

/-- C7 (amended): `clean_html_text` is idempotent on every input whose
cleaned form contains no `&` and no `<`; entity decoding can surface new
markup (see the counterexample), so the unconditional claim fails. -/
theorem C7_conditional_idempotence (s : List Char)
    (hamp : '&' ∉ clean_html_text s) (hlt : '<' ∉ clean_html_text s) :
    clean_html_text (clean_html_text s) = clean_html_text s := by
  by_cases hr : (clean_html_text s).isEmpty
  · rw [clean_html_text, if_pos hr, List.isEmpty_iff.mp hr]
  · have hx : ∃ x, clean_html_text s = pyStrip x := by
      by_cases hse : s.isEmpty
      · exfalso
        have he : clean_html_text s = [] := by rw [clean_html_text, if_pos hse]
        rw [he] at hr
        exact hr rfl
      · exact ⟨_, by rw [clean_html_text, if_neg hse]⟩
    obtain ⟨x, hxe⟩ := hx
    rw [clean_html_text, if_neg hr, stripTags_no_lt _ hlt,
      pyReplace_no_head _ _ _ ⟨_, rfl⟩ hamp, pyReplace_no_head _ _ _ ⟨_, rfl⟩ hamp,
      pyReplace_no_head _ _ _ ⟨_, rfl⟩ hamp, pyReplace_no_head _ _ _ ⟨_, rfl⟩ hamp,
      hxe, pyStrip_idem]

/-- C7 (counterexample): `"&lt;b&gt;"` cleans to `"<b>"`, which a second
pass strips to the empty string. -/
theorem C7_counterexample :
    ¬ (clean_html_text (clean_html_text "&lt;b&gt;".data) =
        clean_html_text "&lt;b&gt;".data) := by
  decide

theorem C7_conditional_idempotence_witness :
    '&' ∉ clean_html_text "hello".data ∧ '<' ∉ clean_html_text "hello".data ∧
    clean_html_text (clean_html_text "hello".data) = clean_html_text "hello".data :=
  ⟨by decide, by decide, C7_conditional_idempotence "hello".data (by decide) (by decide)⟩

/-! ### C3: the classifier -/

/-- C3: a recognized explicit tag is returned unchanged whatever the items
look like; without one the shape rules fire in the order summary,
experience, skill, project, with the experience check ahead of the skill
check — an item holding both `position` and `tags` yields
`ExperienceSection` — and the concrete example
`{position: "Engineer", tags: ["Go"]}` resolves to `ExperienceSection`. -/
theorem C3_classifier_priority :
    (∀ sec : J, isKnownTag (pyGetD sec "__t".data (J.str [])) = true →
      resolve_section_type sec = pyGetD sec "__t".data (J.str [])) ∧
    (∀ sec : J, isKnownTag (pyGetD sec "__t".data (J.str [])) = false →
      hasSummaryItem (itemsOf sec) = true →
      resolve_section_type sec = J.str "SummarySection".data) ∧
    (∀ sec : J, isKnownTag (pyGetD sec "__t".data (J.str [])) = false →
      hasSummaryItem (itemsOf sec) = false →
      hasExperienceItem (itemsOf sec) = true →
      resolve_section_type sec = J.str "ExperienceSection".data) ∧
    (∀ sec : J, isKnownTag (pyGetD sec "__t".data (J.str [])) = false →
      hasSummaryItem (itemsOf sec) = false →
      hasExperienceItem (itemsOf sec) = false →
      hasSkillItem (itemsOf sec) = true →
      resolve_section_type sec = J.str "TechnologySection".data) ∧
    (∀ sec : J, isKnownTag (pyGetD sec "__t".data (J.str [])) = false →
      hasSummaryItem (itemsOf sec) = false →
      hasExperienceItem (itemsOf sec) = false →
      hasSkillItem (itemsOf sec) = false →
      hasProjectItem (itemsOf sec) = true →
      resolve_section_type sec = J.str "ProjectSection".data) ∧
    (∀ sec : J, isKnownTag (pyGetD sec "__t".data (J.str [])) = false →
      hasSummaryItem (itemsOf sec) = false →
      hasExperienceItem (itemsOf sec) = false →
      hasSkillItem (itemsOf sec) = false →
      hasProjectItem (itemsOf sec) = false →
      pyTruthy (pyGetD sec "__t".data (J.str [])) = false →
      resolve_section_type sec = J.str "Other".data) ∧
    resolve_section_type (J.obj [("items".data, J.arr [J.obj [("position".data,
      J.str "Engineer".data), ("tags".data, J.arr [J.str "Go".data])]])]) =
      J.str "ExperienceSection".data := by
  refine ⟨?_, ?_, ?_, ?_, ?_, ?_, rfl⟩
  · intro sec h1
    simp [resolve_section_type, h1]
  · intro sec h1 h2
    simp [resolve_section_type, h1, h2]
  · intro sec h1 h2 h3
    simp [resolve_section_type, h1, h2, h3]
  · intro sec h1 h2 h3 h4
    simp [resolve_section_type, h1, h2, h3, h4]
  · intro sec h1 h2 h3 h4 h5
    simp [resolve_section_type, h1, h2, h3, h4, h5]
  · intro sec h1 h2 h3 h4 h5 h6
    simp [resolve_section_type, h1, h2, h3, h4, h5, h6]

theorem C3_classifier_priority_witness :
    isKnownTag (pyGetD (J.obj [("__t".data, J.str "EducationSection".data)])
      "__t".data (J.str [])) = true ∧
    resolve_section_type (J.obj [("__t".data, J.str "EducationSection".data)]) =
      pyGetD (J.obj [("__t".data, J.str "EducationSection".data)]) "__t".data (J.str []) ∧
    resolve_section_type (J.obj [("items".data, J.arr [J.obj [("position".data,
      J.str "Engineer".data), ("tags".data, J.arr [J.str "Go".data])]])]) =
      J.str "ExperienceSection".data :=
  ⟨by decide,
    C3_classifier_priority.1 (J.obj [("__t".data, J.str "EducationSection".data)])
      (by decide),
    C3_classifier_priority.2.2.1 (J.obj [("items".data, J.arr [J.obj [("position".data,
      J.str "Engineer".data), ("tags".data, J.arr [J.str "Go".data])]])])
      (by decide) (by decide) (by decide)⟩

/-! ### C4 and C10: date-range formatting -/

/-- C4 (amended): the spec's three examples and the `isOngoing` override
hold; months 1-12 go through the fixed 13-slot table; months `≥ 13` are
rendered as zero-padded numbers; but months `-13..-1` select from the table
end by Python's negative indexing (`-1` gives `"12"`), and months `≤ -14`
raise `IndexError` instead of being zero-padded. -/
theorem C4_date_format (m : Int) :
    format_date_range (J.obj [("fromMonth".data, J.num 1), ("fromYear".data, J.num 2020),
      ("isOngoing".data, J.bool true)]) = some "01/2020 - Present".data ∧
    format_date_range (J.obj [("fromMonth".data, J.num 3), ("fromYear".data, J.num 2019),
      ("toYear".data, J.num 2021)]) = some "03/2019 - 2021".data ∧
    format_date_range (J.obj []) = some [] ∧
    (∀ tm ty : Option J, toPart tm ty true = some "Present".data) ∧
    (1 ≤ m → m ≤ 12 → monthStr m = some (monthsTable.getD m.toNat [])) ∧
    (13 ≤ m → monthStr m = some (zfill2 (intChars m))) ∧
    (-13 ≤ m → m ≤ -1 → monthStr m = some (monthsTable.getD (13 + m).toNat [])) ∧
    (m ≤ -14 → monthStr m = none) := by
  refine ⟨by decide, by decide, by decide, fun tm ty => rfl, ?_, ?_, ?_, ?_⟩
  · intro h1 h2
    rw [monthStr, if_pos (by omega), if_pos (by omega)]
  · intro h1
    rw [monthStr, if_neg (by omega)]
  · intro h1 h2
    rw [monthStr, if_pos (by omega), if_neg (by omega), if_pos (by omega)]
  · intro h1
    rw [monthStr, if_pos (by omega), if_neg (by omega), if_neg (by omega)]

/-- C4 (counterexample): `fromMonth = -1` renders as `"12"` through
negative indexing, not as the zero-padded number the spec promises, and
`fromMonth = -14` is an uncaught `IndexError`. -/
theorem C4_counterexample :
    format_date_range (J.obj [("fromMonth".data, J.num (-1)),
      ("fromYear".data, J.num 2020)]) = some "12/2020".data ∧
    monthStr (-1) = some "12".data ∧
    zfill2 (intChars (-1)) = "-1".data ∧
    "12".data ≠ zfill2 (intChars (-1)) ∧
    monthStr (-14) = none := by
  decide

theorem C4_date_format_witness :
    monthStr 5 = some ['0', '5'] ∧
    monthStr 14 = some "14".data ∧
    monthStr (-2) = some "11".data ∧
    monthStr (-20) = none := by
  refine ⟨?_, ?_, ?_, ?_⟩
  · rw [(C4_date_format 5).2.2.2.2.1 (by omega) (by omega)]
    rfl
  · rw [(C4_date_format 14).2.2.2.2.2.1 (by omega)]
    rfl
  · rw [(C4_date_format (-2)).2.2.2.2.2.2.1 (by omega) (by omega)]
    rfl
  · rw [(C4_date_format (-20)).2.2.2.2.2.2.2 (by omega)]

theorem fromPart_false : ∀ (fm fy : Option J),
    (optTruthy fm && optTruthy fy) = false → fromPart fm fy = some []
  | none, _ => fun _ => rfl
  | some _, none => fun _ => rfl
  | some mv, some yv => fun h => by
    have h2 : (pyTruthy mv && pyTruthy yv) = false := h
    rw [fromPart, h2]
    rfl

/-- C10: with `isOngoing` falsy, a nonempty rendering needs both
`fromMonth` and `fromYear` truthy: only a year, only end fields, or a zero
month all yield the empty string, while an end consisting of a bare year is
shown only next to a complete start. -/
theorem C10_start_required :
    (∀ (d : J) (ts : List Char), pyTruthy d = true →
      (optTruthy (pyGet d "fromMonth".data) && optTruthy (pyGet d "fromYear".data)) = false →
      toPart (pyGet d "toMonth".data) (pyGet d "toYear".data)
        (pyTruthy (pyGetD d "isOngoing".data (J.bool false))) = some ts →
      format_date_range d = some []) ∧
    format_date_range (J.obj [("fromYear".data, J.num 2020)]) = some [] ∧
    format_date_range (J.obj [("toMonth".data, J.num 5),
      ("toYear".data, J.num 2021)]) = some [] ∧
    format_date_range (J.obj [("fromMonth".data, J.num 0),
      ("fromYear".data, J.num 2020)]) = some [] ∧
    format_date_range (J.obj [("fromMonth".data, J.num 2), ("fromYear".data, J.num 2000),
      ("toYear".data, J.num 2005)]) = some "02/2000 - 2005".data := by
  refine ⟨?_, by decide, by decide, by decide, by decide⟩
  intro d ts hd hno hts
  have hf : fromPart (pyGet d "fromMonth".data) (pyGet d "fromYear".data) = some [] :=
    fromPart_false _ _ hno
  rw [format_date_range, if_neg (by rw [hd]; simp), hf, hts]
  rfl

theorem C10_start_required_witness :
    pyTruthy (J.obj [("toYear".data, J.num 2021)]) = true ∧
    (optTruthy (pyGet (J.obj [("toYear".data, J.num 2021)]) "fromMonth".data) &&
      optTruthy (pyGet (J.obj [("toYear".data, J.num 2021)]) "fromYear".data)) = false ∧
    toPart (pyGet (J.obj [("toYear".data, J.num 2021)]) "toMonth".data)
      (pyGet (J.obj [("toYear".data, J.num 2021)]) "toYear".data)
      (pyTruthy (pyGetD (J.obj [("toYear".data, J.num 2021)]) "isOngoing".data
        (J.bool false))) = some "2021".data ∧
    format_date_range (J.obj [("toYear".data, J.num 2021)]) = some [] :=
  ⟨by decide, by decide, by decide,
    C10_start_required.1 (J.obj [("toYear".data, J.num 2021)]) "2021".data
      (by decide) (by decide) (by decide)⟩

/-! ### C9: the section gate of the two backends -/

/-- C9: in both backend loops a section with a falsy `enabled` contributes
no block at all, and dropping it leaves the surrounding sections' output
untouched; `enabled: false` is falsy and a missing key defaults to enabled;
an enabled section emits exactly its body; and the renderer's in-memory
section list keeps disabled sections. -/
theorem C9_disabled_section_excluded :
    (∀ (body : J → List (List Char)) (pre post : List J) (sec : J),
      sectionEnabled sec = false →
      htmlSections body (pre ++ sec :: post) =
        htmlSections body pre ++ htmlSections body post) ∧
    (∀ (body : J → List (List Char)) (pre post : List J) (sec : J),
      sectionEnabled sec = false →
      storyBlocks body (pre ++ sec :: post) =
        storyBlocks body pre ++ storyBlocks body post) ∧
    (∀ sec : J, pyGet sec "enabled".data = some (J.bool false) →
      sectionEnabled sec = false) ∧
    (∀ sec : J, pyGet sec "enabled".data = none → sectionEnabled sec = true) ∧
    (∀ (body : J → List (List Char)) (sec : J), sectionEnabled sec = true →
      htmlSections body [sec] = body sec ∧ storyBlocks body [sec] = body sec) ∧
    (∀ xs : List J, rendererSections (J.obj [("sections".data, J.arr xs)]) = xs) := by
  refine ⟨?_, ?_, ?_, ?_, ?_, ?_⟩
  · intro body pre post sec hsec
    induction pre with
    | nil =>
      rw [List.nil_append]
      show (if sectionEnabled sec then body sec else []) ++ htmlSections body post =
        htmlSections body [] ++ htmlSections body post
      rw [hsec]
      rfl
    | cons a t ih =>
      rw [List.cons_append, htmlSections, htmlSections, ih, List.append_assoc]
  · intro body pre post sec hsec
    induction pre with
    | nil =>
      rw [List.nil_append]
      show (if sectionEnabled sec then body sec else []) ++ storyBlocks body post =
        storyBlocks body [] ++ storyBlocks body post
      rw [hsec]
      rfl
    | cons a t ih =>
      rw [List.cons_append, storyBlocks, storyBlocks, ih, List.append_assoc]
  · intro sec h
    rw [sectionEnabled, pyGetD, h]
    rfl
  · intro sec h
    rw [sectionEnabled, pyGetD, h]
    rfl
  · intro body sec hsec
    constructor
    · rw [htmlSections, hsec]
      simp [htmlSections]
    · rw [storyBlocks, hsec]
      simp [storyBlocks]
  · intro xs
    rfl

theorem C9_disabled_section_excluded_witness :
    sectionEnabled (J.obj [("enabled".data, J.bool false)]) = false ∧
    htmlSections (fun _ => [['x']]) ([] ++ (J.obj [("enabled".data, J.bool false)]) :: []) =
      htmlSections (fun _ => [['x']]) [] ++ htmlSections (fun _ => [['x']]) [] ∧
    storyBlocks (fun _ => [['x']]) ([] ++ (J.obj [("enabled".data, J.bool false)]) :: []) =
      storyBlocks (fun _ => [['x']]) [] ++ storyBlocks (fun _ => [['x']]) [] ∧
    sectionEnabled (J.obj []) = true ∧
    htmlSections (fun _ => [['x']]) [J.obj []] = [['x']] ∧
    rendererSections (J.obj [("sections".data, J.arr [J.obj []])]) = [J.obj []] :=
  ⟨by decide,
    C9_disabled_section_excluded.1 (fun _ => [['x']]) [] []
      (J.obj [("enabled".data, J.bool false)]) (by decide),
    C9_disabled_section_excluded.2.1 (fun _ => [['x']]) [] []
      (J.obj [("enabled".data, J.bool false)]) (by decide),
    by decide,
    (C9_disabled_section_excluded.2.2.2.2.1 (fun _ => [['x']]) (J.obj [])
      (by decide)).1,
    C9_disabled_section_excluded.2.2.2.2.2 [J.obj []]⟩


end NovaJob
